import Mathlib

/-!
Verification of the catering quotation app (order form screen and history
screen) against its natural-language specification.

The two source files are React Native / TypeScript.  All operations the
claims are about are pure string / list / arithmetic manipulations plus
simple read-modify-write sequences over two stored collections, so they
embed shallowly:

* JavaScript strings are modelled as `List Char` (record fields use
  `String`, converted with `String.toList` where character-level work is
  needed); all strings in scope are ASCII, so UTF-16 length equals
  code-point count.
* `String.prototype.split`, `Number`, `parseInt`, the time regular
  expression of the history screen, and the `Date(y, m, d, h, min)`
  constructor (including its month/day/minute rollover and the 0..99 →
  1900-based year mapping) are modelled faithfully below.  Numeric values
  are kept as exact fractions (`JsRat`); every value reached by the claims
  is a small integer, exactly representable in IEEE-754, so float rounding
  is irrelevant.  Time zones / DST are not modelled: the embedding works in
  a fixed local time, which is what every claim is about.
* `AsyncStorage` becomes explicit state passing; the possible failure of
  each awaited file / storage step in the generate-and-save flow becomes an
  explicit failure-point parameter.
-/

/-! ## Characters, digits, decimal rendering -/

/-- Character class of the JavaScript regular-expression `\s` escape and of
`String.prototype.trim` (WhiteSpace ∪ LineTerminator). -/
def isJsSpace (c : Char) : Bool :=
  c = ' ' ∨ c = '\t' ∨ c = '\n' ∨ c.toNat = 11 ∨ c.toNat = 12 ∨ c = '\r' ∨
  c.toNat = 0xA0 ∨ c.toNat = 0x1680 ∨ (0x2000 ≤ c.toNat ∧ c.toNat ≤ 0x200A) ∨
  c.toNat = 0x2028 ∨ c.toNat = 0x2029 ∨ c.toNat = 0x202F ∨ c.toNat = 0x205F ∨
  c.toNat = 0x3000 ∨ c.toNat = 0xFEFF

/-- Decimal digit character for a value below ten. -/
def digitChar : Nat → Char
  | 0 => '0' | 1 => '1' | 2 => '2' | 3 => '3' | 4 => '4'
  | 5 => '5' | 6 => '6' | 7 => '7' | 8 => '8' | _ => '9'

/-- Numeric value of a decimal digit character. -/
def digitVal (c : Char) : Nat := c.toNat - 48

/-- Value of a decimal digit string (leading zeros allowed); this is what
`parseInt` and `Number` return on an all-digit input. -/
def digitsVal (l : List Char) : Nat := l.foldl (fun a c => 10 * a + digitVal c) 0

/-- Fueled base-10 rendering (most significant digit first). -/
def natToStrAux : Nat → Nat → List Char
  | 0, _ => []
  | fuel + 1, n => if n < 10 then [digitChar n] else natToStrAux fuel (n / 10) ++ [digitChar (n % 10)]

/-- Decimal rendering of a natural number, as JavaScript `String(n)` /
template-literal interpolation produces for the integers in scope. -/
def natToStr (n : Nat) : List Char := natToStrAux (n + 1) n

/-- Decimal rendering of an integer. -/
def intToStr (i : Int) : List Char :=
  if i < 0 then '-' :: natToStr (-i).toNat else natToStr i.toNat

/-- Model of `String.prototype.padStart(n, c)`. -/
def padStart (n : Nat) (c : Char) (l : List Char) : List Char :=
  List.replicate (n - l.length) c ++ l

/-! ## JavaScript `String.prototype.split` with a literal separator -/

/-- Does `p` occur at the head of `l`? -/
def listStartsWith : List Char → List Char → Bool
  | [], _ => true
  | _ :: _, [] => false
  | p :: ps, c :: cs => p = c && listStartsWith ps cs

/-- Scanner for `split` with the (nonempty) separator `s0 :: srest`.
`skip` counts separator characters still to be consumed after a match;
`cur` is the current fragment, reversed.  Matches are leftmost and
non-overlapping, exactly as in JavaScript. -/
def splitAux (s0 : Char) (srest : List Char) : List Char → Nat → List Char → List (List Char)
  | [], _, cur => [cur.reverse]
  | _ :: t, skip + 1, cur => splitAux s0 srest t skip cur
  | c :: t, 0, cur =>
    if c = s0 ∧ listStartsWith srest t then
      cur.reverse :: splitAux s0 srest t srest.length []
    else
      splitAux s0 srest t 0 (c :: cur)

/-- Model of `s.split(sep)` for a nonempty literal separator (the two
separators the code uses are a single space-delimited word and a slash).
The empty-separator case never occurs in the source. -/
def splitSub (sep l : List Char) : List (List Char) :=
  match sep with
  | [] => [l]
  | s0 :: srest => splitAux s0 srest l 0 []

/-! ## JavaScript `Number(string)` -/

/-- Exact unreduced fraction: value is `n / d`.  Every denominator produced
below is a positive power of ten. -/
structure JsRat where
  n : Int
  d : Nat
deriving DecidableEq, Repr

/-- Result of `Number(string)`: NaN, a signed infinity, or a finite value. -/
inductive JsNum where
  | nan : JsNum
  | inf : Bool → JsNum
  | num : JsRat → JsNum
deriving DecidableEq, Repr

/-- Model of the JavaScript `isNaN` test on a `Number` result. -/
def jsIsNaN : JsNum → Bool
  | .nan => true
  | _ => false

/-- A finite integer `Number` value. -/
def jsInt (i : Int) : JsNum := .num ⟨i, 1⟩

/-- Model of `String.prototype.trim` (strip leading and trailing JS
whitespace). -/
def jsTrim (l : List Char) : List Char :=
  ((l.dropWhile isJsSpace).reverse.dropWhile isJsSpace).reverse

/-- Hexadecimal digit value, if any. -/
def hexVal (c : Char) : Option Nat :=
  if c.isDigit then some (digitVal c)
  else if 'a' ≤ c ∧ c ≤ 'f' then some (c.toNat - 87)
  else if 'A' ≤ c ∧ c ≤ 'F' then some (c.toNat - 55)
  else none

/-- Value of a digit string in base `base`, failing on a non-digit. -/
def radixVal (base : Nat) (dig : Char → Option Nat) (l : List Char) : Option Nat :=
  l.foldl (fun a c => match a, dig c with
    | some v, some dv => some (base * v + dv)
    | _, _ => none) (some 0)

/-- Exponent part of a decimal literal: empty, or `e`/`E`, an optional
sign, and a nonempty digit string; anything else fails (making the whole
literal NaN). -/
def parseExp : List Char → Option Int
  | [] => some 0
  | c :: r =>
    if c = 'e' ∨ c = 'E' then
      match r with
      | '+' :: r2 => if r2 ≠ [] ∧ r2.all Char.isDigit then some (digitsVal r2) else none
      | '-' :: r2 => if r2 ≠ [] ∧ r2.all Char.isDigit then some (-(digitsVal r2 : Int)) else none
      | r2 => if r2 ≠ [] ∧ r2.all Char.isDigit then some (digitsVal r2) else none
    else none

/-- Unsigned decimal literal `digits [. digits] [exp]` or `. digits [exp]`,
as an exact fraction. -/
def parseDecimal (r : List Char) : Option JsRat :=
  let intPart := r.takeWhile Char.isDigit
  let r1 := r.dropWhile Char.isDigit
  match r1 with
  | '.' :: r2 =>
    let frac := r2.takeWhile Char.isDigit
    let r3 := r2.dropWhile Char.isDigit
    if intPart = [] ∧ frac = [] then none
    else
      (parseExp r3).map fun e =>
        let base : Int := (digitsVal intPart) * 10 ^ frac.length + digitsVal frac
        if 0 ≤ e then ⟨base * 10 ^ e.toNat, 10 ^ frac.length⟩
        else ⟨base, 10 ^ frac.length * 10 ^ (-e).toNat⟩
  | _ =>
    if intPart = [] then none
    else
      (parseExp r1).map fun e =>
        let base : Int := digitsVal intPart
        if 0 ≤ e then ⟨base * 10 ^ e.toNat, 1⟩ else ⟨base, 10 ^ (-e).toNat⟩

/-- Negate a finite or infinite value. -/
def jsNeg : JsNum → JsNum
  | .nan => .nan
  | .inf b => .inf (!b)
  | .num v => .num ⟨-v.n, v.d⟩

/-- Unsigned decimal literal or the `Infinity` keyword. -/
def parseUnsigned (r : List Char) : JsNum :=
  if r = ('I' :: 'n' :: 'f' :: 'i' :: 'n' :: 'i' :: 't' :: 'y' :: []) then .inf false
  else match parseDecimal r with
    | some v => .num v
    | none => .nan

/-- Optionally signed decimal literal or `Infinity`. -/
def parseSigned (t : List Char) : JsNum :=
  match t with
  | '+' :: r => parseUnsigned r
  | '-' :: r => jsNeg (parseUnsigned r)
  | r => parseUnsigned r

/-- Trimmed, nonempty numeric literal (StrNumericLiteral): a hexadecimal,
octal, or binary integer literal, or an optionally signed decimal
literal / `Infinity`. -/
def parseNumeric (t : List Char) : JsNum :=
  match t with
  | '0' :: c :: rest =>
    if c = 'x' ∨ c = 'X' then
      if rest = [] then .nan else
      match radixVal 16 hexVal rest with
      | some v => jsInt v
      | none => .nan
    else if c = 'o' ∨ c = 'O' then
      if rest = [] then .nan else
      match radixVal 8 (fun c => if '0' ≤ c ∧ c ≤ '7' then some (digitVal c) else none) rest with
      | some v => jsInt v
      | none => .nan
    else if c = 'b' ∨ c = 'B' then
      if rest = [] then .nan else
      match radixVal 2 (fun c => if c = '0' ∨ c = '1' then some (digitVal c) else none) rest with
      | some v => jsInt v
      | none => .nan
    else parseSigned t
  | _ => parseSigned t

/-- Model of JavaScript `Number(string)`: trim whitespace; empty means 0;
otherwise the whole remainder must be a numeric literal, else NaN. -/
def jsNumber (l : List Char) : JsNum :=
  let t := jsTrim l
  if t = [] then jsInt 0 else parseNumeric t

/-! ## The history screen's time regular expression and `parseDate` -/

/-- Attempt of the regular expression `(\d+):(\d+)\s*(AM|PM)` (flag `i`) at
the current position: a nonempty digit run, a colon, a nonempty digit run,
optional whitespace, then a case-insensitive AM or PM.  Returns the two
`parseInt`-ed captures and whether the meridiem capture is PM.  The digit
runs are maximal, which coincides with the regex backtracking semantics
because a digit is neither a colon nor whitespace nor A/P. -/
def matchTimeAt (l : List Char) : Option (Nat × Nat × Bool) :=
  let d1 := l.takeWhile Char.isDigit
  if d1 = [] then none
  else
    match l.dropWhile Char.isDigit with
    | ':' :: r2 =>
      let d2 := r2.takeWhile Char.isDigit
      if d2 = [] then none
      else
        match (r2.dropWhile Char.isDigit).dropWhile isJsSpace with
        | a :: m :: _ =>
          if (a = 'A' ∨ a = 'a' ∨ a = 'P' ∨ a = 'p') ∧ (m = 'M' ∨ m = 'm') then
            some (digitsVal d1, digitsVal d2, a = 'P' ∨ a = 'p')
          else none
        | _ => none
    | _ => none

/-- Model of `timePart.match(/(\d+):(\d+)\s*(AM|PM)/i)`: leftmost match
anywhere in the string. -/
def searchTime : List Char → Option (Nat × Nat × Bool)
  | [] => none
  | c :: t =>
    match matchTimeAt (c :: t) with
    | some r => some r
    | none => searchTime t

/-- The 12-to-24-hour conversion of `parseDate`: PM with hour ≠ 12 adds
12; AM with hour = 12 maps to 0. -/
def jsTo24 (pm : Bool) (h : Nat) : Nat :=
  if pm ∧ h ≠ 12 then h + 12 else if pm = false ∧ h = 12 then 0 else h

/-- Result of the history screen's `parseDate`: either the `new Date()`
fallback (the current moment at parse time) or the numeric components that
are passed to `new Date(y, m - 1, d, hour, minute)`. -/
inductive ParseOutcome where
  | fallback : ParseOutcome
  | parsed : JsNum → JsNum → JsNum → Nat → Nat → ParseOutcome
deriving DecidableEq, Repr

/-- Shallow embedding of `parseDate` from `app/(tabs)/history.tsx`.  The
final `isNaN(hour) || isNaN(minute)` guard of the source is vacuous here:
both values come from `parseInt` applied to the nonempty digit captures of
the regular expression, which never yields NaN. -/
def parseDate (s : List Char) : ParseOutcome :=
  if s = [] then .fallback
  else
    match splitSub (' ' :: 'a' :: 't' :: ' ' :: []) s with
    | [datePart, timePart] =>
      let nums := (splitSub ['/'] datePart).map jsNumber
      match nums with
      | [d, m, y] =>
        if jsIsNaN d ∨ jsIsNaN m ∨ jsIsNaN y then .fallback
        else
          match searchTime timePart with
          | some (h, mi, pm) => .parsed d m y (jsTo24 pm h) mi
          | none => .fallback
      | _ => .fallback
    | _ => .fallback

/-! ## JavaScript `Date` component arithmetic

`new Date(y, m, d, h, min)` normalizes out-of-range components by plain
calendar arithmetic.  We model a date as a count of minutes since the Unix
epoch in local time (every value in scope is a whole number of minutes). -/

/-- Days from the civil epoch 1970-01-01 for a (proleptic Gregorian) year,
1-based month, and day (Howard Hinnant's `days_from_civil`). -/
def daysFromCivil (y m d : Int) : Int :=
  let y1 := if m ≤ 2 then y - 1 else y
  let era := Int.fdiv y1 400
  let yoe := y1 - era * 400
  let mp := Int.fmod (m + 9) 12
  let doy := Int.fdiv (153 * mp + 2) 5 + d - 1
  let doe := yoe * 365 + Int.fdiv yoe 4 - Int.fdiv yoe 100 + doy
  era * 146097 + doe - 719468

/-- Inverse of `daysFromCivil`: year, 1-based month, day. -/
def civilFromDays (z0 : Int) : Int × Int × Int :=
  let z := z0 + 719468
  let era := Int.fdiv z 146097
  let doe := z - era * 146097
  let yoe := Int.fdiv (doe - Int.fdiv doe 1460 + Int.fdiv doe 36524 - Int.fdiv doe 146096) 365
  let y := yoe + era * 400
  let doy := doe - (365 * yoe + Int.fdiv yoe 4 - Int.fdiv yoe 100)
  let mp := Int.fdiv (5 * doy + 2) 153
  let d := doy - Int.fdiv (153 * mp + 2) 5 + 1
  let m := mp + (if mp < 10 then 3 else -9)
  (if m ≤ 2 then y + 1 else y, m, d)

/-- Truncation toward zero of a finite value (ToIntegerOrInfinity). -/
def jsTrunc (v : JsRat) : Int := Int.tdiv v.n (v.d : Int)

/-- Minutes since the epoch of `new Date(y, m, d, h, min)` for already
truncated integer arguments (`m` 0-based), including the ECMAScript
mapping of years 0..99 to 1900..1999 and MakeDay's month normalization. -/
def makeDateMinutes (y m d : Int) (h mi : Nat) : Int :=
  let yr := if 0 ≤ y ∧ y ≤ 99 then y + 1900 else y
  let ym := yr + Int.fdiv m 12
  let mn := Int.fmod m 12
  (daysFromCivil ym (mn + 1) 1 + (d - 1)) * 1440 + (h : Int) * 60 + (mi : Int)

/-- Minutes-since-epoch value of a `parseDate` result, given the current
moment `now` (as minutes since the epoch): the fallback is `new Date()`;
a parsed result is `new Date(y, m - 1, d, hour, minute)`.  `none` is the
invalid-date case (an infinite component), whose time value is NaN. -/
def jsDateValue (now : Int) : ParseOutcome → Option Int
  | .fallback => some now
  | .parsed d m y h mi =>
    match d, m, y with
    | .num dv, .num mv, .num yv =>
      some (makeDateMinutes (jsTrunc yv) (jsTrunc ⟨mv.n - (mv.d : Int), mv.d⟩) (jsTrunc dv) h mi)
    | _, _, _ => none

/-- Civil components (year, 1-based month, day, hour, minute) of a
minutes-since-epoch value: `getFullYear` / `getMonth() + 1` /
`getDate` / `getHours` / `getMinutes`. -/
def dateParts (t : Int) : Int × Int × Int × Int × Int :=
  let days := Int.fdiv t 1440
  let rem := Int.fmod t 1440
  let c := civilFromDays days
  (c.1, c.2.1, c.2.2, Int.fdiv rem 60, Int.fmod rem 60)

/-- English month name, as `toLocaleString('default', { month: 'long' })`
produces on an English-locale device (the locale the spec's labels
assume). -/
def monthName (m : Int) : List Char :=
  if m = 1 then ('J' :: 'a' :: 'n' :: 'u' :: 'a' :: 'r' :: 'y' :: [])
  else if m = 2 then ('F' :: 'e' :: 'b' :: 'r' :: 'u' :: 'a' :: 'r' :: 'y' :: [])
  else if m = 3 then ('M' :: 'a' :: 'r' :: 'c' :: 'h' :: [])
  else if m = 4 then ('A' :: 'p' :: 'r' :: 'i' :: 'l' :: [])
  else if m = 5 then ('M' :: 'a' :: 'y' :: [])
  else if m = 6 then ('J' :: 'u' :: 'n' :: 'e' :: [])
  else if m = 7 then ('J' :: 'u' :: 'l' :: 'y' :: [])
  else if m = 8 then ('A' :: 'u' :: 'g' :: 'u' :: 's' :: 't' :: [])
  else if m = 9 then ('S' :: 'e' :: 'p' :: 't' :: 'e' :: 'm' :: 'b' :: 'e' :: 'r' :: [])
  else if m = 10 then ('O' :: 'c' :: 't' :: 'o' :: 'b' :: 'e' :: 'r' :: [])
  else if m = 11 then ('N' :: 'o' :: 'v' :: 'e' :: 'm' :: 'b' :: 'e' :: 'r' :: [])
  else ('D' :: 'e' :: 'c' :: 'e' :: 'm' :: 'b' :: 'e' :: 'r' :: [])

/-- The history screen's month-year group label of a date value,
`` `${dt.toLocaleString('default', { month: 'long' })} ${dt.getFullYear()}` ``.
An invalid date stringifies to the label of NaN components. -/
def monthYearLabel : Option Int → List Char
  | none =>
    ('I' :: 'n' :: 'v' :: 'a' :: 'l' :: 'i' :: 'd' :: ' ' :: 'D' :: 'a' :: 't' :: 'e' :: ' ' ::
     'N' :: 'a' :: 'N' :: [])
  | some t =>
    let p := dateParts t
    monthName p.2.1 ++ ' ' :: intToStr p.1

/-! ## The order form's `formatDateTime` -/

/-- Hour in the 12-hour clock, as `toLocaleTimeString('en-US', { hour:
'numeric' ... hour12: true })` renders an hour `h ≤ 23`. -/
def hour12 (h : Nat) : Nat := if h % 12 = 0 then 12 else h % 12

/-- Shallow embedding of `formatDateTime` from the order form:
`date.toLocaleDateString('en-GB')` is `DD/MM/YYYY` (2-digit-padded day and
month) and `time.toLocaleTimeString('en-US', ...)` is `h:mm AM`/`h:mm PM`;
they are joined with a literal `" at "`.  The space before the meridiem is
modelled as U+0020 (some engines emit U+202F; both lie in the `\s` class
the reader's regular expression skips, so nothing downstream changes). -/
def formatDateTime (d m y h mi : Nat) : List Char :=
  padStart 2 '0' (natToStr d) ++ '/' :: padStart 2 '0' (natToStr m) ++ '/' :: natToStr y ++
  (' ' :: 'a' :: 't' :: ' ' :: []) ++
  natToStr (hour12 h) ++ ':' :: padStart 2 '0' (natToStr mi) ++
  ' ' :: (if h < 12 then ('A' :: 'M' :: []) else ('P' :: 'M' :: []))

/-! ## Data model of the order form (app/(tabs)/index.tsx) -/

/-- A remembered client profile (`type Client`). -/
structure Client where
  mobile : String
  name : String
  address : String
  notes : String
deriving DecidableEq, Repr

/-- One line item of a quotation (`type OrderBlock`). -/
structure OrderBlock where
  id : String
  description : String
  notes : String
  guests : String
deriving DecidableEq, Repr

/-- The persisted order record built by `generateAndSavePDF`. -/
structure OrderRec where
  id : String
  clientName : String
  mobile : String
  address : String
  dateTime : String
  orderBlocks : List OrderBlock
  quotationAmount : String
  pdfUri : String
deriving DecidableEq, Repr

/-- The two stored collections (`AsyncStorage` keys `orders` and
`clients`). -/
structure Store where
  orders : List OrderRec
  clients : List Client
deriving DecidableEq, Repr

/-! ## generateOrderId -/

/-- ASCII uppercase of a character, the fragment of
`String.prototype.toUpperCase` exercised here. -/
def asciiUpper (c : Char) : Char := c.toUpper

/-- The event date as the order form holds it: `getFullYear`,
0-based `getMonth`, day-of-month `getDate`. -/
structure FormDate where
  year : Nat
  month0 : Nat
  day : Nat
deriving DecidableEq, Repr

/-- What `generateOrderId` inspects of each stored order: its optional
`id` field (`o.id?.startsWith(base)`, so a record without an id never
counts). -/
structure StoredId where
  id : Option String
deriving DecidableEq, Repr

/-- Shallow embedding of `generateOrderId`: empty result when client name
or date is absent; otherwise the whitespace-stripped uppercased client
name, 2-padded day, 2-padded month, year, and a literal Q, followed by the
3-padded count of stored order ids extending this base, plus one. -/
def generateOrderId (clientName : String) (date : Option FormDate)
    (orders : List StoredId) : List Char :=
  match date with
  | none => []
  | some dt =>
    if clientName = "" then []
    else
      let d := padStart 2 '0' (natToStr dt.day)
      let m := padStart 2 '0' (natToStr (dt.month0 + 1))
      let base :=
        ((clientName.toList.filter (fun c => !(isJsSpace c))).map asciiUpper) ++
        d ++ m ++ natToStr dt.year ++ ['Q']
      let same := orders.filter fun o =>
        match o.id with
        | some i => listStartsWith base i.toList
        | none => false
      base ++ padStart 3 '0' (natToStr (same.length + 1))

/-! ## saveClient, order blocks, validation -/

/-- The notes snapshotted into the client profile: the first order
block's notes (`orderBlocks[0].notes`). -/
def firstNotes (blocks : List OrderBlock) : String :=
  match blocks with
  | [] => ""
  | b :: _ => b.notes

/-- In-place overwrite of the first record with the given mobile
(`Object.assign(existing, newClient)` on the record `find` returned). -/
def overwriteFirst (mobile : String) (newClient : Client) : List Client → List Client
  | [] => []
  | c :: t =>
    if c.mobile = mobile then newClient :: t else c :: overwriteFirst mobile newClient t

/-- Shallow embedding of `saveClient`: no-op when mobile or client name is
empty; otherwise upsert by mobile — `Object.assign` overwrites the first
record with the same mobile in place, else the new record is appended.
The snapshotted notes are those of the first order block (the source
indexes `orderBlocks[0]`, which the block-list invariant keeps present). -/
def saveClient (mobile clientName address : String) (blocks : List OrderBlock)
    (clients : List Client) : List Client :=
  if mobile = "" ∨ clientName = "" then clients
  else
    let notes := match blocks with
      | [] => ""
      | b :: _ => b.notes
    let newClient : Client := ⟨mobile, clientName, address, notes⟩
    if clients.all fun c => c.mobile ≠ mobile then clients ++ [newClient]
    else overwriteFirst mobile newClient clients

/-- Shallow embedding of `addOrderBlock` (the fresh id is
`Date.now().toString()`, passed in here). -/
def addOrderBlock (newId : String) (blocks : List OrderBlock) : List OrderBlock :=
  blocks ++ [⟨newId, "", "", ""⟩]

/-- Fields of an order block that `updateBlock` can set. -/
inductive BlockField where
  | description : BlockField
  | notes : BlockField
  | guests : BlockField
deriving DecidableEq, Repr

/-- Shallow embedding of `updateBlock`. -/
def updateBlock (q : String) (f : BlockField) (v : String)
    (blocks : List OrderBlock) : List OrderBlock :=
  blocks.map fun b =>
    if b.id = q then
      match f with
      | .description => { b with description := v }
      | .notes => { b with notes := v }
      | .guests => { b with guests := v }
    else b

/-- Shallow embedding of `removeBlock`: filter out the given id, but only
when more than one block is present. -/
def removeBlock (q : String) (blocks : List OrderBlock) : List OrderBlock :=
  if blocks.length > 1 then blocks.filter fun b => b.id ≠ q else blocks

/-- The mobile check of `generateAndSavePDF`:
`mobile.length !== 10 || isNaN(Number(mobile))` blocks; this predicate is
acceptance. -/
def mobileOk (m : String) : Bool :=
  m.toList.length = 10 ∧ !(jsIsNaN (jsNumber m.toList))

/-! ## generateAndSavePDF -/

/-- Everything `generateAndSavePDF` reads from component state.  The
record's `dateTime` field is `formatDateTime()` of the form's event date
and time, so the date and time are carried as components here. -/
structure FormState where
  orderId : String
  clientName : String
  mobile : String
  address : String
  quotationAmount : String
  blocks : List OrderBlock
  day : Nat
  month : Nat
  year : Nat
  hour : Nat
  minute : Nat
deriving DecidableEq, Repr

/-- The awaited file / storage steps of the `try` block that can reject,
in execution order: `ensureFolder`, `Print.printToFileAsync`,
`FileSystem.copyAsync`, the read (and JSON parse) of the stored `orders`
key, the write of `orders`, and the write of `clients` inside
`saveClient` (whose own read failure is swallowed by `loadClients`).
`none` is the run in which every step resolves. -/
inductive FailPoint where
  | ensureFolder : FailPoint
  | printToFile : FailPoint
  | copyAsync : FailPoint
  | getOrders : FailPoint
  | setOrders : FailPoint
  | setClients : FailPoint
deriving DecidableEq, Repr

/-- The order record the source pushes onto the stored list. -/
def mkOrder (docDir : String) (f : FormState) : OrderRec :=
  { id := f.orderId
    clientName := f.clientName
    mobile := f.mobile
    address := f.address
    dateTime := String.mk (formatDateTime f.day f.month f.year f.hour f.minute)
    orderBlocks := f.blocks
    quotationAmount := f.quotationAmount
    pdfUri := docDir ++ "BBN_Quotations/" ++ f.orderId ++ ".pdf" }

/-- Result of one `generateAndSavePDF` run: the returned value (`null` or
`{ finalUri }`), the snackbar message it set (if any), and the stored
collections afterwards. -/
structure GenResult where
  result : Option String
  message : Option String
  store : Store
deriving DecidableEq, Repr

/-- Shallow embedding of `generateAndSavePDF`.  `docDir` is the app's
document directory (a platform constant), `fp` says which awaited step of
the `try` block rejects, if any.  An `AsyncStorage.setItem` either
completes or leaves its key unchanged; steps after a rejecting step do not
run, and the `catch` turns any rejection into the "Failed to generate
PDF" message and a `null` result. -/
def generateAndSavePDF (docDir : String) (f : FormState) (st : Store)
    (fp : Option FailPoint) : GenResult :=
  if f.orderId = "" ∨ f.clientName = "" ∨ f.mobile = "" ∨ f.address = "" ∨
      f.quotationAmount = "" then
    ⟨none, some ("Fill all required fields."), st⟩
  else if !(mobileOk f.mobile) then
    ⟨none, some ("Mobile must be 10 digits."), st⟩
  else if f.blocks.all fun b => jsTrim b.description.toList = [] then
    ⟨none, some ("Add at least one menu item."), st⟩
  else
    let failed := "Failed to generate PDF"
    if fp = some .ensureFolder ∨ fp = some .printToFile ∨ fp = some .copyAsync ∨
        fp = some .getOrders ∨ fp = some .setOrders then
      ⟨none, some failed, st⟩
    else
      let order := mkOrder docDir f
      let st1 : Store := { st with orders := st.orders ++ [order] }
      if fp = some .setClients then ⟨none, some failed, st1⟩
      else
        ⟨some order.pdfUri, none,
         { st1 with
            clients := saveClient f.mobile f.clientName f.address f.blocks st.clients }⟩

/-! ## Data model of the history screen (app/(tabs)/history.tsx) -/

/-- One order block as the history screen reads it (`{ description,
notes }`). -/
structure HBlock where
  description : String
  notes : String
deriving DecidableEq, Repr

/-- A raw entry of the stored `orders` array before repair.  A JSON field
that is missing is indistinguishable from an empty string under the
source's truthiness checks, so `id` / `dateTime` / `pdfUri` are plain
strings with the empty string standing for absent-or-empty; the fields
that are only defaulted (not filtered on) keep their optionality. -/
structure RawOrder where
  id : String
  dateTime : String
  pdfUri : String
  clientName : Option String
  mobile : Option String
  address : Option String
  orderBlocks : Option (List HBlock)
  quotationAmount : Option String
deriving DecidableEq, Repr

/-- A repaired order (`type Order` of the history screen). -/
structure HOrder where
  id : String
  clientName : String
  mobile : String
  address : String
  dateTime : String
  orderBlocks : List HBlock
  quotationAmount : String
  pdfUri : String
deriving DecidableEq, Repr

/-- Step 1 normalization of the load pipeline: default the optional
fields. -/
def normalizeOrder (o : RawOrder) : HOrder :=
  { id := o.id
    clientName := o.clientName.getD ("")
    mobile := o.mobile.getD ("")
    address := o.address.getD ("")
    dateTime := o.dateTime
    orderBlocks := o.orderBlocks.getD ([])
    quotationAmount := o.quotationAmount.getD ("0")
    pdfUri := o.pdfUri }

/-- Step 1 of the load pipeline: keep entries whose `id`, `dateTime` and
`pdfUri` are truthy, then normalize. -/
def validOrders (raw : List RawOrder) : List HOrder :=
  (raw.filter fun o => o.id ≠ "" ∧ o.dateTime ≠ "" ∧ o.pdfUri ≠ "").map normalizeOrder

/-- Step 2 of the load pipeline, generalized: keep the first occurrence of
each key, dropping any element whose key was already seen. -/
def keepFirstAux [DecidableEq β] (key : α → β) : List α → List β → List α
  | [], _ => []
  | x :: t, seen =>
    if key x ∈ seen then keepFirstAux key t seen
    else x :: keepFirstAux key t (key x :: seen)

/-- Deduplicate by key, keeping first occurrences in order (the source's
`seen : Set<string>` loop). -/
def keepFirst [DecidableEq β] (key : α → β) (l : List α) : List α := keepFirstAux key l []

/-- Steps 1-3 of the load pipeline: the repaired list, and the write-back
(`AsyncStorage.setItem('orders', ...)` happens only when deduplication
shortened the list). -/
def historyLoad (raw : List RawOrder) : List HOrder × Option (List HOrder) :=
  let valid := validOrders raw
  let deduped := keepFirst (fun o => o.id) valid
  (deduped, if deduped.length ≠ valid.length then some deduped else none)

/-! ## Sorting and grouping (steps 4-5) -/

/-- The sort key: `parseDate(o.dateTime).getTime()`, with the current
moment `now` substituted for the fallback.  The `getD 0` branch is never
reached for orders whose parse yields finite components (hypothesis of
the sorting claim); it stands in for the NaN time of an invalid date. -/
def timeKey (now : Int) (o : HOrder) : Int :=
  (jsDateValue now (parseDate o.dateTime.toList)).getD 0

/-- Stable descending insertion: the new element goes before the first
element whose key is not larger, so elements of equal key keep their
original relative order — the output any stable sort (and the ES2019+
`Array.prototype.sort`) produces with the comparator
`parseDate(b) - parseDate(a)`. -/
def insertDesc (now : Int) (x : HOrder) : List HOrder → List HOrder
  | [] => [x]
  | y :: t =>
    if timeKey now x < timeKey now y then y :: insertDesc now x t else x :: y :: t

/-- Step 4 of the load pipeline: sort descending by parsed date/time. -/
def sortDesc (now : Int) : List HOrder → List HOrder
  | [] => []
  | x :: t => insertDesc now x (sortDesc now t)

/-- The group label of an order: `"<Month name> <Year>"` of its parsed
date. -/
def orderLabel (now : Int) (o : HOrder) : List Char :=
  monthYearLabel (jsDateValue now (parseDate o.dateTime.toList))

/-- Append an order to its label's group, or open a fresh group at the
end — the insertion-ordered string-keyed object `groups` of the source
(`"<Month> <Year>"` is not an array index, so `Object.entries` preserves
insertion order). -/
def addToGroups (lab : List Char) (o : HOrder) :
    List (List Char × List HOrder) → List (List Char × List HOrder)
  | [] => [(lab, [o])]
  | (t, d) :: rest =>
    if t = lab then (t, d ++ [o]) :: rest else (t, d) :: addToGroups lab o rest

/-- Step 5 of the load pipeline: group the sorted list by label. -/
def groupByLabel (now : Int) (l : List HOrder) : List (List Char × List HOrder) :=
  l.foldl (fun acc o => addToGroups (orderLabel now o) o acc) []

/-- A rendered section (`type Section`). -/
structure HSection where
  title : List Char
  data : List HOrder
  count : Nat
deriving DecidableEq, Repr

/-- The full pipeline from the repaired list to the section list the
screen renders. -/
def historySections (now : Int) (orders : List HOrder) : List HSection :=
  (groupByLabel now (sortDesc now orders)).map fun g => ⟨g.1, g.2, g.2.length⟩

/-! ## Lemmas: digits and decimal strings -/

theorem isDigit_toNat (c : Char) (h : c.isDigit = true) : 48 ≤ c.toNat ∧ c.toNat ≤ 57 := by
  simp [Char.isDigit, Char.le_def] at h
  exact ⟨h.1, h.2⟩

theorem char_ne_of_toNat_ne {a b : Char} (h : a.toNat ≠ b.toNat) : a ≠ b :=
  fun hab => h (by rw [hab])

theorem isDigit_ne (c x : Char) (h : c.isDigit = true)
    (hx : x.toNat < 48 ∨ 57 < x.toNat) : c ≠ x := by
  have hb := isDigit_toNat c h
  exact char_ne_of_toNat_ne (by omega)

theorem isDigit_not_space (c : Char) (h : c.isDigit = true) : isJsSpace c = false := by
  have hb := isDigit_toNat c h
  simp only [isJsSpace, decide_eq_false_iff_not]
  push_neg
  refine ⟨?_, ?_, ?_, ?_, ?_, ?_, ?_, ?_, ?_, ?_, ?_, ?_, ?_, ?_, ?_⟩ <;>
    first
      | exact isDigit_ne c _ h (by decide)
      | omega

theorem digitChar_isDigit (n : Nat) (h : n < 10) : (digitChar n).isDigit = true := by
  interval_cases n <;> decide

theorem digitVal_digitChar (n : Nat) (h : n < 10) : digitVal (digitChar n) = n := by
  interval_cases n <;> decide

theorem digitsVal_append_single (a : List Char) (c : Char) :
    digitsVal (a ++ [c]) = 10 * digitsVal a + digitVal c := by
  simp [digitsVal, List.foldl_append]

theorem natToStrAux_spec (fuel n : Nat) (h : n < fuel) :
    (natToStrAux fuel n).all Char.isDigit = true ∧ natToStrAux fuel n ≠ [] ∧
      digitsVal (natToStrAux fuel n) = n := by
  induction fuel generalizing n with
  | zero => omega
  | succ fuel ih =>
    by_cases h10 : n < 10
    · simp only [natToStrAux, if_pos h10]
      refine ⟨by simp [digitChar_isDigit n h10], by simp, ?_⟩
      simp [digitsVal, digitVal_digitChar n h10]
    · have hdiv : n / 10 < fuel := by omega
      obtain ⟨ha, hne, hv⟩ := ih (n / 10) hdiv
      simp only [natToStrAux, if_neg h10]
      refine ⟨?_, by simp, ?_⟩
      · simp only [List.all_append, ha, Bool.true_and, List.all_cons, List.all_nil,
          Bool.and_true]
        exact digitChar_isDigit (n % 10) (Nat.mod_lt n (by omega))
      · rw [digitsVal_append_single, hv, digitVal_digitChar (n % 10) (Nat.mod_lt n (by omega))]
        omega

theorem natToStr_all_digit (n : Nat) : (natToStr n).all Char.isDigit = true :=
  (natToStrAux_spec (n + 1) n (by omega)).1

theorem natToStr_ne_nil (n : Nat) : natToStr n ≠ [] :=
  (natToStrAux_spec (n + 1) n (by omega)).2.1

theorem digitsVal_natToStr (n : Nat) : digitsVal (natToStr n) = n :=
  (natToStrAux_spec (n + 1) n (by omega)).2.2

theorem digitsVal_cons_zero (l : List Char) : digitsVal ('0' :: l) = digitsVal l := by
  show List.foldl _ (10 * 0 + digitVal '0') l = List.foldl _ 0 l
  norm_num [show digitVal '0' = 0 from by decide]

theorem digitsVal_zero_pad (k : Nat) (l : List Char) :
    digitsVal (List.replicate k '0' ++ l) = digitsVal l := by
  induction k with
  | zero => simp
  | succ k ih =>
    simp only [List.replicate_succ, List.cons_append]
    rw [digitsVal_cons_zero]
    exact ih

theorem digitsVal_padStart (n : Nat) (l : List Char) :
    digitsVal (padStart n '0' l) = digitsVal l :=
  digitsVal_zero_pad _ l

theorem padStart_all_digit (n : Nat) (l : List Char) (h : l.all Char.isDigit = true) :
    (padStart n '0' l).all Char.isDigit = true := by
  simp only [padStart, List.all_append, h, Bool.and_true]
  simp [List.all_eq_true]

theorem padStart_ne_nil (n : Nat) (c : Char) (l : List Char) (h : l ≠ []) :
    padStart n c l ≠ [] := by
  simp only [padStart]
  intro he
  exact h (List.append_eq_nil.mp he).2

/-! ## Lemmas: takeWhile / dropWhile / trim -/

theorem takeWhile_append_stop {p : Char → Bool} (l m : List Char)
    (h : ∀ c ∈ l, p c = true) (x : Char) (hx : p x = false) :
    List.takeWhile p (l ++ x :: m) = l := by
  induction l with
  | nil => simp [List.takeWhile, hx]
  | cons c t ih =>
    simp only [List.cons_append, List.takeWhile]
    rw [h c (by simp)]
    simp only [List.cons.injEq, true_and]
    exact ih fun c hc => h c (by simp [hc])

theorem dropWhile_append_stop {p : Char → Bool} (l m : List Char)
    (h : ∀ c ∈ l, p c = true) (x : Char) (hx : p x = false) :
    List.dropWhile p (l ++ x :: m) = x :: m := by
  induction l with
  | nil => simp [List.dropWhile, hx]
  | cons c t ih =>
    simp only [List.cons_append, List.dropWhile]
    rw [h c (by simp)]
    exact ih fun c hc => h c (by simp [hc])

theorem takeWhile_all_true {p : Char → Bool} (l : List Char) (h : ∀ c ∈ l, p c = true) :
    List.takeWhile p l = l := by
  induction l with
  | nil => rfl
  | cons c t ih =>
    simp only [List.takeWhile]
    rw [h c (by simp)]
    simp only [List.cons.injEq, true_and]
    exact ih fun c hc => h c (by simp [hc])

theorem dropWhile_all_true {p : Char → Bool} (l : List Char) (h : ∀ c ∈ l, p c = true) :
    List.dropWhile p l = [] := by
  induction l with
  | nil => rfl
  | cons c t ih =>
    simp only [List.dropWhile]
    rw [h c (by simp)]
    exact ih fun c hc => h c (by simp [hc])

theorem dropWhile_all_false {p : Char → Bool} (l : List Char) (h : ∀ c ∈ l, p c = false) :
    List.dropWhile p l = l := by
  cases l with
  | nil => rfl
  | cons c t =>
    simp only [List.dropWhile]
    rw [h c (by simp)]

theorem jsTrim_no_space (l : List Char) (h : ∀ c ∈ l, isJsSpace c = false) :
    jsTrim l = l := by
  unfold jsTrim
  rw [dropWhile_all_false l h,
    dropWhile_all_false l.reverse (fun c hc => h c (List.mem_reverse.mp hc)),
    List.reverse_reverse]

/-! ## Lemmas: split -/

theorem listStartsWith_append_self (p r : List Char) :
    listStartsWith p (p ++ r) = true := by
  induction p with
  | nil => rfl
  | cons c t ih => simp [listStartsWith, ih]

theorem listStartsWith_false_of_head_notMem (s1 : Char) (r l : List Char) (h : s1 ∉ l) :
    listStartsWith (s1 :: r) l = false := by
  cases l with
  | nil => rfl
  | cons c t =>
    simp only [listStartsWith]
    have : s1 ≠ c := fun he => h (by simp [he])
    simp [this]

theorem splitAux_skip (s0 : Char) (srest a b cur : List Char) :
    splitAux s0 srest (a ++ b) a.length cur = splitAux s0 srest b 0 cur := by
  induction a with
  | nil => rfl
  | cons c t ih => simpa [splitAux] using ih

theorem splitAux_match (s0 : Char) (srest a b cur : List Char) (h : s0 ∉ a) :
    splitAux s0 srest (a ++ (s0 :: srest) ++ b) 0 cur =
      (cur.reverse ++ a) :: splitAux s0 srest b 0 [] := by
  induction a generalizing cur with
  | nil =>
    show splitAux s0 srest (s0 :: (srest ++ b)) 0 cur = _
    simp only [splitAux]
    rw [if_pos ⟨trivial, listStartsWith_append_self srest b⟩, splitAux_skip]
    simp
  | cons x t ih =>
    have hx : x ≠ s0 := fun he => h (by simp [he])
    show splitAux s0 srest (x :: (t ++ (s0 :: srest) ++ b)) 0 cur = _
    simp only [splitAux]
    rw [if_neg (by simp [hx])]
    rw [ih (x :: cur) (fun hm => h (List.mem_cons_of_mem x hm))]
    simp

theorem splitAux_no_sep1 (s0 : Char) (srest l cur : List Char) (h : s0 ∉ l) :
    splitAux s0 srest l 0 cur = [cur.reverse ++ l] := by
  induction l generalizing cur with
  | nil => simp [splitAux]
  | cons c t ih =>
    have hc : c ≠ s0 := fun he => h (by simp [he])
    simp only [splitAux]
    rw [if_neg (by simp [hc])]
    rw [ih (c :: cur) (fun hm => h (List.mem_cons_of_mem c hm))]
    simp

theorem splitAux_no_sep2 (s0 s1 : Char) (r l cur : List Char) (h : s1 ∉ l) :
    splitAux s0 (s1 :: r) l 0 cur = [cur.reverse ++ l] := by
  induction l generalizing cur with
  | nil => simp [splitAux]
  | cons c t ih =>
    simp only [splitAux]
    rw [if_neg ?_]
    · rw [ih (c :: cur) (fun hm => h (List.mem_cons_of_mem c hm))]
      simp
    · intro hand
      have hst := listStartsWith_false_of_head_notMem s1 r t
        (fun hm => h (List.mem_cons_of_mem c hm))
      rw [hst] at hand
      exact absurd hand.2 (by simp)

/-! ## Lemmas: Number on digit strings -/

theorem parseDecimal_digits (l : List Char) (ha : ∀ c ∈ l, c.isDigit = true) (hne : l ≠ []) :
    parseDecimal l = some ⟨(digitsVal l : Int), 1⟩ := by
  have h1 : l.takeWhile Char.isDigit = l := takeWhile_all_true l ha
  have h2 : l.dropWhile Char.isDigit = [] := dropWhile_all_true l ha
  simp only [parseDecimal, h1, h2, parseExp, if_neg hne]
  norm_num

theorem parseUnsigned_digits (l : List Char) (ha : ∀ c ∈ l, c.isDigit = true) (hne : l ≠ []) :
    parseUnsigned l = jsInt (digitsVal l) := by
  have hinf : l ≠ ('I' :: 'n' :: 'f' :: 'i' :: 'n' :: 'i' :: 't' :: 'y' :: []) := by
    intro he
    have := ha 'I' (by rw [he]; simp)
    exact absurd this (by decide)
  simp only [parseUnsigned, if_neg hinf, parseDecimal_digits l ha hne, jsInt]

theorem parseSigned_digits (l : List Char) (ha : ∀ c ∈ l, c.isDigit = true) (hne : l ≠ []) :
    parseSigned l = jsInt (digitsVal l) := by
  have hu := parseUnsigned_digits l ha hne
  unfold parseSigned
  split
  · next r =>
    exact absurd (ha '+' (by simp)) (by decide)
  · next r =>
    exact absurd (ha '-' (by simp)) (by decide)
  · exact hu

theorem parseNumeric_digits (l : List Char) (ha : ∀ c ∈ l, c.isDigit = true) (hne : l ≠ []) :
    parseNumeric l = jsInt (digitsVal l) := by
  have hs := parseSigned_digits l ha hne
  unfold parseNumeric
  split
  · next c rest =>
    have hc : c.isDigit = true := ha c (by simp)
    rw [if_neg ?_, if_neg ?_, if_neg ?_]
    · exact hs
    all_goals
      rintro (h1 | h1) <;>
        · subst h1
          revert hc
          decide
  · exact hs

theorem jsNumber_all_digits (l : List Char) (ha : ∀ c ∈ l, c.isDigit = true) (hne : l ≠ []) :
    jsNumber l = jsInt (digitsVal l) := by
  have ht : jsTrim l = l := jsTrim_no_space l fun c hc => isDigit_not_space c (ha c hc)
  simp only [jsNumber, ht, if_neg hne]
  exact parseNumeric_digits l ha hne

/-! ## Lemmas: the time pattern and the formatter/parser round trip -/

theorem matchTimeAt_fmt (a b : List Char) (p1 : Char)
    (ha : ∀ c ∈ a, c.isDigit = true) (hane : a ≠ [])
    (hb : ∀ c ∈ b, c.isDigit = true) (hbne : b ≠ [])
    (hp1 : p1 = 'A' ∨ p1 = 'P') :
    matchTimeAt (a ++ ':' :: (b ++ ' ' :: p1 :: 'M' :: [])) =
      some (digitsVal a, digitsVal b, decide (p1 = 'P' ∨ p1 = 'p')) := by
  have h1 : (a ++ ':' :: (b ++ ' ' :: p1 :: 'M' :: [])).takeWhile Char.isDigit = a :=
    takeWhile_append_stop a _ ha ':' (by decide)
  have h2 : (a ++ ':' :: (b ++ ' ' :: p1 :: 'M' :: [])).dropWhile Char.isDigit =
      ':' :: (b ++ ' ' :: p1 :: 'M' :: []) :=
    dropWhile_append_stop a _ ha ':' (by decide)
  have h3 : (b ++ ' ' :: p1 :: 'M' :: []).takeWhile Char.isDigit = b :=
    takeWhile_append_stop b _ hb ' ' (by decide)
  have h4 : (b ++ ' ' :: p1 :: 'M' :: []).dropWhile Char.isDigit = ' ' :: p1 :: 'M' :: [] :=
    dropWhile_append_stop b _ hb ' ' (by decide)
  have h5 : (' ' :: p1 :: 'M' :: []).dropWhile isJsSpace = p1 :: 'M' :: [] := by
    rcases hp1 with h | h <;> subst h <;> decide
  simp only [matchTimeAt, h1, h2, h3, h4, h5, if_neg hane, if_neg hbne]
  rcases hp1 with h | h <;> subst h <;> simp

theorem searchTime_of_match (l : List Char) (r : Nat × Nat × Bool)
    (h : matchTimeAt l = some r) : searchTime l = some r := by
  cases l with
  | nil => exact absurd h (by simp [matchTimeAt])
  | cons c t => simp [searchTime, h]

theorem jsTo24_am (h : Nat) (hlt : h < 12) : jsTo24 false (hour12 h) = h := by
  simp only [jsTo24, hour12]
  split_ifs <;> simp_all <;> omega

theorem jsTo24_pm (h : Nat) (hge : 12 ≤ h) (hle : h ≤ 23) : jsTo24 true (hour12 h) = h := by
  simp only [jsTo24, hour12]
  split_ifs <;> simp_all <;> omega

theorem all_digit_forall (l : List Char) (h : l.all Char.isDigit = true) :
    ∀ c ∈ l, c.isDigit = true := List.all_eq_true.mp h

theorem pad2_digits (n : Nat) : ∀ c ∈ padStart 2 '0' (natToStr n), c.isDigit = true :=
  all_digit_forall _ (padStart_all_digit 2 _ (natToStr_all_digit n))

theorem pad2_ne_nil (n : Nat) : padStart 2 '0' (natToStr n) ≠ [] :=
  padStart_ne_nil 2 '0' _ (natToStr_ne_nil n)

theorem jsNumber_pad2 (n : Nat) : jsNumber (padStart 2 '0' (natToStr n)) = jsInt n := by
  rw [jsNumber_all_digits _ (pad2_digits n) (pad2_ne_nil n), digitsVal_padStart,
    digitsVal_natToStr]

theorem splitAux_match1 (s0 : Char) (a b cur : List Char) (h : s0 ∉ a) :
    splitAux s0 [] (a ++ s0 :: b) 0 cur = (cur.reverse ++ a) :: splitAux s0 [] b 0 [] := by
  induction a generalizing cur with
  | nil =>
    show splitAux s0 [] (s0 :: b) 0 cur = _
    simp only [splitAux]
    rw [if_pos ⟨trivial, by simp [listStartsWith]⟩]
    simp [splitAux]
  | cons x t ih =>
    have hx : x ≠ s0 := fun he => h (by simp [he])
    show splitAux s0 [] (x :: (t ++ s0 :: b)) 0 cur = _
    simp only [splitAux]
    rw [if_neg (by simp [hx])]
    rw [ih (x :: cur) (fun hm => h (List.mem_cons_of_mem x hm))]
    simp

theorem parseDate_fmt_core (d m y hv mi : Nat) (p1 : Char) (hp1 : p1 = 'A' ∨ p1 = 'P') :
    parseDate
      ((padStart 2 '0' (natToStr d) ++ '/' :: (padStart 2 '0' (natToStr m) ++ '/' :: natToStr y)) ++
        (' ' :: 'a' :: 't' :: ' ' :: []) ++
        (natToStr hv ++ ':' :: (padStart 2 '0' (natToStr mi) ++ ' ' :: p1 :: 'M' :: []))) =
      .parsed (jsInt d) (jsInt m) (jsInt y)
        (jsTo24 (decide (p1 = 'P' ∨ p1 = 'p')) hv) mi := by
  set dp := padStart 2 '0' (natToStr d) ++ '/' :: (padStart 2 '0' (natToStr m) ++ '/' :: natToStr y) with hdp
  set tp := natToStr hv ++ ':' :: (padStart 2 '0' (natToStr mi) ++ ' ' :: p1 :: 'M' :: []) with htp
  have hdpchars : ∀ c ∈ dp, c.isDigit = true ∨ c = '/' := by
    intro c hc
    rw [hdp] at hc
    simp only [List.mem_append, List.mem_cons] at hc
    rcases hc with h | h | h
    · exact Or.inl (pad2_digits d c h)
    · exact Or.inr h
    · rcases h with h | h | h
      · exact Or.inl (pad2_digits m c h)
      · exact Or.inr h
      · exact Or.inl (all_digit_forall _ (natToStr_all_digit y) c h)
  have hsp : ' ' ∉ dp := by
    intro hm
    rcases hdpchars ' ' hm with h | h
    · exact absurd h (by decide)
    · exact absurd h (by decide)
  have hna : 'a' ∉ tp := by
    intro hm
    rw [htp] at hm
    simp only [List.mem_append, List.mem_cons] at hm
    rcases hm with h | h | h
    · exact absurd (all_digit_forall _ (natToStr_all_digit hv) 'a' h) (by decide)
    · exact absurd h (by decide)
    · rcases h with h | h | h | h
      · exact absurd (pad2_digits mi 'a' h) (by decide)
      · exact absurd h (by decide)
      · rcases hp1 with he | he <;> rw [he] at h <;> exact absurd h (by decide)
      · rcases h with h | h
        · exact absurd h (by decide)
        · exact absurd h (by simp)
  have hdpne : dp ≠ [] := by
    rw [hdp]
    intro he
    exact pad2_ne_nil d (List.append_eq_nil.mp he).1
  have hsne : dp ++ (' ' :: 'a' :: 't' :: ' ' :: []) ++ tp ≠ [] := by
    intro he
    exact hdpne (List.append_eq_nil.mp (List.append_eq_nil.mp he).1).1
  have hsplit : splitSub (' ' :: 'a' :: 't' :: ' ' :: []) (dp ++ (' ' :: 'a' :: 't' :: ' ' :: []) ++ tp) = [dp, tp] := by
    show splitAux ' ' ('a' :: 't' :: ' ' :: []) (dp ++ (' ' :: 'a' :: 't' :: ' ' :: []) ++ tp) 0 [] = _
    rw [splitAux_match ' ' ('a' :: 't' :: ' ' :: []) dp tp [] hsp]
    rw [splitAux_no_sep2 ' ' 'a' ('t' :: ' ' :: []) tp [] hna]
    simp
  have hslash_d : '/' ∉ padStart 2 '0' (natToStr d) :=
    fun hm => absurd (pad2_digits d '/' hm) (by decide)
  have hslash_m : '/' ∉ padStart 2 '0' (natToStr m) :=
    fun hm => absurd (pad2_digits m '/' hm) (by decide)
  have hslash_y : '/' ∉ natToStr y :=
    fun hm => absurd (all_digit_forall _ (natToStr_all_digit y) '/' hm) (by decide)
  have hnums : splitSub ['/'] dp =
      [padStart 2 '0' (natToStr d), padStart 2 '0' (natToStr m), natToStr y] := by
    rw [hdp]
    show splitAux '/' [] (padStart 2 '0' (natToStr d) ++ '/' :: (padStart 2 '0' (natToStr m) ++ '/' :: natToStr y)) 0 [] = _
    rw [splitAux_match1 '/' (padStart 2 '0' (natToStr d)) _ [] hslash_d]
    rw [splitAux_match1 '/' (padStart 2 '0' (natToStr m)) _ [] hslash_m]
    rw [splitAux_no_sep1 '/' [] (natToStr y) [] hslash_y]
    simp
  have hmap : (splitSub ['/'] dp).map jsNumber = [jsInt d, jsInt m, jsInt y] := by
    rw [hnums]
    simp only [List.map]
    rw [jsNumber_pad2 d, jsNumber_pad2 m,
      jsNumber_all_digits _ (all_digit_forall _ (natToStr_all_digit y)) (natToStr_ne_nil y),
      digitsVal_natToStr]
  have hsearch : searchTime tp =
      some (digitsVal (natToStr hv), digitsVal (padStart 2 '0' (natToStr mi)),
        decide (p1 = 'P' ∨ p1 = 'p')) := by
    rw [htp]
    exact searchTime_of_match _ _
      (matchTimeAt_fmt (natToStr hv) (padStart 2 '0' (natToStr mi)) p1
        (all_digit_forall _ (natToStr_all_digit hv)) (natToStr_ne_nil hv)
        (pad2_digits mi) (pad2_ne_nil mi) hp1)
  simp only [parseDate, if_neg hsne, hsplit, hmap, hsearch]
  rw [if_neg (by simp [jsIsNaN, jsInt])]
  simp only [digitsVal_padStart, digitsVal_natToStr]

theorem parseDate_formatDateTime (d m y h mi : Nat) (hh : h ≤ 23) :
    parseDate (formatDateTime d m y h mi) = .parsed (jsInt d) (jsInt m) (jsInt y) h mi := by
  by_cases hlt : h < 12
  · have hfmt : formatDateTime d m y h mi =
        (padStart 2 '0' (natToStr d) ++ '/' :: (padStart 2 '0' (natToStr m) ++ '/' :: natToStr y)) ++
          (' ' :: 'a' :: 't' :: ' ' :: []) ++
          (natToStr (hour12 h) ++ ':' :: (padStart 2 '0' (natToStr mi) ++ ' ' :: 'A' :: 'M' :: [])) := by
      simp [formatDateTime, if_pos hlt, List.append_assoc]
    rw [hfmt, parseDate_fmt_core d m y (hour12 h) mi 'A' (Or.inl rfl)]
    rw [show (decide ('A' = 'P' ∨ 'A' = 'p')) = false from by decide]
    rw [jsTo24_am h hlt]
  · have hge : 12 ≤ h := by omega
    have hfmt : formatDateTime d m y h mi =
        (padStart 2 '0' (natToStr d) ++ '/' :: (padStart 2 '0' (natToStr m) ++ '/' :: natToStr y)) ++
          (' ' :: 'a' :: 't' :: ' ' :: []) ++
          (natToStr (hour12 h) ++ ':' :: (padStart 2 '0' (natToStr mi) ++ ' ' :: 'P' :: 'M' :: [])) := by
      simp [formatDateTime, if_neg hlt, List.append_assoc]
    rw [hfmt, parseDate_fmt_core d m y (hour12 h) mi 'P' (Or.inr rfl)]
    rw [show (decide ('P' = 'P' ∨ 'P' = 'p')) = true from by decide]
    rw [jsTo24_pm h hge hh]

/-! ## Lemmas: first-occurrence deduplication -/

theorem keepFirstAux_sublist [DecidableEq β] (key : α → β) (l : List α) (seen : List β) :
    (keepFirstAux key l seen).Sublist l := by
  induction l generalizing seen with
  | nil => simp [keepFirstAux]
  | cons x t ih =>
    simp only [keepFirstAux]
    split
    · exact (ih seen).cons x
    · exact (ih (key x :: seen)).cons₂ x

theorem keepFirstAux_seen [DecidableEq β] (key : α → β) (l : List α) (seen : List β) :
    ∀ x ∈ keepFirstAux key l seen, key x ∉ seen := by
  induction l generalizing seen with
  | nil => simp [keepFirstAux]
  | cons y t ih =>
    intro x hx
    simp only [keepFirstAux] at hx
    split at hx
    · exact ih seen x hx
    · rcases List.mem_cons.mp hx with h | h
      · subst h
        assumption
      · have := ih (key y :: seen) x h
        exact fun hs => this (List.mem_cons_of_mem _ hs)

theorem keepFirstAux_nodup_keys [DecidableEq β] (key : α → β) (l : List α) (seen : List β) :
    ((keepFirstAux key l seen).map key).Nodup := by
  induction l generalizing seen with
  | nil => simp [keepFirstAux]
  | cons y t ih =>
    simp only [keepFirstAux]
    split
    · exact ih seen
    · simp only [List.map_cons, List.nodup_cons]
      refine ⟨?_, ih (key y :: seen)⟩
      intro hmem
      obtain ⟨x, hx, hkx⟩ := List.mem_map.mp hmem
      exact keepFirstAux_seen key t (key y :: seen) x hx (by simp [hkx])

theorem keepFirstAux_mem_iff [DecidableEq β] (key : α → β) (l : List α) (seen : List β)
    (x : α) :
    x ∈ keepFirstAux key l seen ↔
      x ∈ l ∧ key x ∉ seen ∧ l.find? (fun y => decide (key y = key x)) = some x := by
  induction l generalizing seen with
  | nil => simp [keepFirstAux]
  | cons y t ih =>
    simp only [keepFirstAux]
    by_cases hk : key y = key x
    · have hfind : (y :: t).find? (fun z => decide (key z = key x)) = some y :=
        List.find?_cons_of_pos _ (by simp [hk])
      rw [hfind]
      by_cases hseen : key y ∈ seen
      · rw [if_pos hseen, ih seen]
        constructor
        · rintro ⟨hmem, hns, hf⟩
          exact absurd (hk ▸ hseen) hns
        · rintro ⟨hmem, hns, hf⟩
          have hxy : y = x := by injection hf
          subst hxy
          exact absurd hseen hns
      · rw [if_neg hseen]
        simp only [List.mem_cons]
        constructor
        · rintro (h | h)
          · subst h
            exact ⟨Or.inl rfl, hk ▸ hseen, rfl⟩
          · have h3 := keepFirstAux_seen key t (key y :: seen) x h
            exact absurd (by rw [← hk]; exact List.mem_cons_self _ _) h3
        · rintro ⟨hmem, hns, hf⟩
          have hxy : y = x := by injection hf
          subst hxy
          exact Or.inl rfl
    · have hfind : (y :: t).find? (fun z => decide (key z = key x)) =
          t.find? (fun z => decide (key z = key x)) :=
        List.find?_cons_of_neg _ (by simp [hk])
      rw [hfind]
      by_cases hseen : key y ∈ seen
      · rw [if_pos hseen, ih seen]
        simp only [List.mem_cons]
        constructor
        · rintro ⟨hmem, hns, hf⟩
          exact ⟨Or.inr hmem, hns, hf⟩
        · rintro ⟨hmem, hns, hf⟩
          rcases hmem with h | h
          · subst h
            exact absurd rfl hk
          · exact ⟨h, hns, hf⟩
      · rw [if_neg hseen]
        simp only [List.mem_cons]
        constructor
        · rintro (h | h)
          · subst h
            exact absurd rfl hk
          · rw [ih (key y :: seen)] at h
            obtain ⟨hmem, hns, hf⟩ := h
            refine ⟨Or.inr hmem, fun hs => hns (List.mem_cons_of_mem _ hs), hf⟩
        · rintro ⟨hmem, hns, hf⟩
          rcases hmem with h | h
          · subst h
            exact absurd rfl hk
          · right
            rw [ih (key y :: seen)]
            refine ⟨h, ?_, hf⟩
            intro hs
            rcases List.mem_cons.mp hs with h2 | h2
            · exact hk h2.symm
            · exact hns h2

theorem keepFirstAux_of_nodup [DecidableEq β] (key : α → β) (l : List α) (seen : List β)
    (h : (l.map key).Nodup) (hseen : ∀ x ∈ l, key x ∉ seen) :
    keepFirstAux key l seen = l := by
  induction l generalizing seen with
  | nil => rfl
  | cons y t ih =>
    simp only [keepFirstAux, if_neg (hseen y (by simp))]
    simp only [List.map_cons, List.nodup_cons] at h
    congr 1
    refine ih (key y :: seen) h.2 ?_
    intro x hx hmem
    rcases List.mem_cons.mp hmem with h2 | h2
    · exact h.1 (List.mem_map.mpr ⟨x, hx, h2⟩)
    · exact hseen x (List.mem_cons_of_mem _ hx) h2

theorem keepFirst_of_nodup [DecidableEq β] (key : α → β) (l : List α)
    (h : (l.map key).Nodup) : keepFirst key l = l :=
  keepFirstAux_of_nodup key l [] h (by simp)

/-! ## Lemmas: sorting -/

theorem insertDesc_perm (now : Int) (x : HOrder) (l : List HOrder) :
    List.Perm (insertDesc now x l) (x :: l) := by
  induction l with
  | nil => rfl
  | cons y t ih =>
    simp only [insertDesc]
    split
    · exact (ih.cons y).trans (List.Perm.swap x y t)
    · rfl

theorem sortDesc_perm (now : Int) (l : List HOrder) : List.Perm (sortDesc now l) l := by
  induction l with
  | nil => rfl
  | cons x t ih => exact (insertDesc_perm now x (sortDesc now t)).trans (ih.cons x)

theorem insertDesc_sorted (now : Int) (x : HOrder) (l : List HOrder)
    (h : l.Pairwise fun a b => timeKey now b ≤ timeKey now a) :
    (insertDesc now x l).Pairwise fun a b => timeKey now b ≤ timeKey now a := by
  induction l with
  | nil => simp [insertDesc]
  | cons y t ih =>
    simp only [insertDesc]
    rcases List.pairwise_cons.mp h with ⟨hy, ht⟩
    split
    · next hlt =>
      refine List.pairwise_cons.mpr ⟨?_, ih ht⟩
      intro z hz
      have hz2 := (insertDesc_perm now x t).mem_iff.mp hz
      rcases List.mem_cons.mp hz2 with h2 | h2
      · subst h2
        omega
      · exact hy z h2
    · next hge =>
      refine List.pairwise_cons.mpr ⟨?_, h⟩
      intro z hz
      rcases List.mem_cons.mp hz with h2 | h2
      · subst h2
        omega
      · exact le_trans (hy z h2) (by omega)

theorem sortDesc_sorted (now : Int) (l : List HOrder) :
    (sortDesc now l).Pairwise fun a b => timeKey now b ≤ timeKey now a := by
  induction l with
  | nil => simp [sortDesc]
  | cons x t ih => exact insertDesc_sorted now x (sortDesc now t) ih

/-! ## Lemmas: grouping -/

theorem keepFirstAux_seen_congr [DecidableEq β] (key : α → β) (l : List α) (s1 s2 : List β)
    (h : ∀ b, b ∈ s1 ↔ b ∈ s2) : keepFirstAux key l s1 = keepFirstAux key l s2 := by
  induction l generalizing s1 s2 with
  | nil => rfl
  | cons x t ih =>
    simp only [keepFirstAux]
    by_cases hx : key x ∈ s1
    · rw [if_pos hx, if_pos ((h _).mp hx)]
      exact ih s1 s2 h
    · rw [if_neg hx, if_neg (fun hc => hx ((h _).mpr hc))]
      congr 1
      refine ih _ _ ?_
      intro b
      simp [h b]

theorem addToGroups_fst (lab : List Char) (o : HOrder)
    (acc : List (List Char × List HOrder)) :
    (addToGroups lab o acc).map Prod.fst =
      if lab ∈ acc.map Prod.fst then acc.map Prod.fst else acc.map Prod.fst ++ [lab] := by
  induction acc with
  | nil => simp [addToGroups]
  | cons g rest ih =>
    obtain ⟨t, d⟩ := g
    simp only [addToGroups]
    by_cases ht : t = lab
    · subst ht
      simp
    · rw [if_neg ht]
      simp only [List.map_cons, ih, List.mem_cons]
      by_cases hmem : lab ∈ rest.map Prod.fst
      · rw [if_pos hmem, if_pos (Or.inr hmem)]
      · rw [if_neg hmem, if_neg ?_]
        · simp
        · rintro (h | h)
          · exact ht h.symm
          · exact hmem h

theorem groupFold_fst (now : Int) (l : List HOrder) (acc : List (List Char × List HOrder)) :
    (l.foldl (fun acc o => addToGroups (orderLabel now o) o acc) acc).map Prod.fst =
      acc.map Prod.fst ++
        keepFirstAux (fun lab => lab) (l.map (orderLabel now)) (acc.map Prod.fst) := by
  induction l generalizing acc with
  | nil => simp [keepFirstAux]
  | cons o t ih =>
    simp only [List.foldl_cons, List.map_cons, keepFirstAux]
    rw [ih (addToGroups (orderLabel now o) o acc), addToGroups_fst]
    by_cases hmem : orderLabel now o ∈ acc.map Prod.fst
    · rw [if_pos hmem, if_pos hmem]
    · rw [if_neg hmem, if_neg hmem]
      rw [keepFirstAux_seen_congr (fun lab => lab) (t.map (orderLabel now))
        (acc.map Prod.fst ++ [orderLabel now o]) (orderLabel now o :: acc.map Prod.fst)
        (by intro b; simp [or_comm])]
      simp [List.append_assoc]

theorem addToGroups_join (lab : List Char) (o : HOrder)
    (acc : List (List Char × List HOrder)) :
    List.Perm ((addToGroups lab o acc).map Prod.snd).flatten
      ((acc.map Prod.snd).flatten ++ [o]) := by
  induction acc with
  | nil => simp [addToGroups]
  | cons g rest ih =>
    obtain ⟨t, d⟩ := g
    simp only [addToGroups]
    by_cases ht : t = lab
    · rw [if_pos ht]
      simp only [List.map_cons, List.flatten_cons]
      have h1 : (d ++ [o]) ++ (rest.map Prod.snd).flatten =
          d ++ ([o] ++ (rest.map Prod.snd).flatten) := by rw [List.append_assoc]
      have h2 : (d ++ (rest.map Prod.snd).flatten) ++ [o] =
          d ++ ((rest.map Prod.snd).flatten ++ [o]) := by rw [List.append_assoc]
      rw [h1, h2]
      exact List.Perm.append_left d List.perm_append_comm
    · rw [if_neg ht]
      simp only [List.map_cons, List.flatten_cons]
      have h2 : (d ++ (rest.map Prod.snd).flatten) ++ [o] =
          d ++ ((rest.map Prod.snd).flatten ++ [o]) := by rw [List.append_assoc]
      rw [h2]
      exact List.Perm.append_left d ih

theorem groupFold_join (now : Int) (l : List HOrder)
    (acc : List (List Char × List HOrder)) :
    List.Perm
      (((l.foldl (fun acc o => addToGroups (orderLabel now o) o acc) acc).map Prod.snd).flatten)
      ((acc.map Prod.snd).flatten ++ l) := by
  induction l generalizing acc with
  | nil => simp
  | cons o t ih =>
    simp only [List.foldl_cons]
    refine (ih (addToGroups (orderLabel now o) o acc)).trans ?_
    have h1 := (addToGroups_join (orderLabel now o) o acc).append_right t
    refine h1.trans ?_
    rw [List.append_assoc]
    exact List.Perm.refl _

theorem addToGroups_members (now : Int) (lab : List Char) (o : HOrder)
    (acc : List (List Char × List HOrder))
    (h : ∀ g ∈ acc, ∀ x ∈ g.2, orderLabel now x = g.1) (ho : orderLabel now o = lab) :
    ∀ g ∈ addToGroups lab o acc, ∀ x ∈ g.2, orderLabel now x = g.1 := by
  induction acc with
  | nil =>
    intro g hg x hx
    simp only [addToGroups, List.mem_cons, List.not_mem_nil, or_false] at hg
    subst hg
    simp only [List.mem_cons, List.not_mem_nil, or_false] at hx
    subst hx
    exact ho
  | cons g0 rest ih =>
    obtain ⟨t, d⟩ := g0
    intro g hg x hx
    simp only [addToGroups] at hg
    by_cases ht : t = lab
    · rw [if_pos ht] at hg
      rcases List.mem_cons.mp hg with h2 | h2
      · subst h2
        simp only at hx
        rcases List.mem_append.mp hx with h3 | h3
        · exact h (t, d) (by simp) x h3
        · simp only [List.mem_cons, List.not_mem_nil, or_false] at h3
          subst h3
          rw [ho, ht]
      · exact h g (List.mem_cons_of_mem _ h2) x hx
    · rw [if_neg ht] at hg
      rcases List.mem_cons.mp hg with h2 | h2
      · subst h2
        exact h (t, d) (by simp) x hx
      · exact ih (fun g2 hg2 => h g2 (List.mem_cons_of_mem _ hg2)) g h2 x hx

theorem groupFold_members (now : Int) (l : List HOrder)
    (acc : List (List Char × List HOrder))
    (h : ∀ g ∈ acc, ∀ x ∈ g.2, orderLabel now x = g.1) :
    ∀ g ∈ l.foldl (fun acc o => addToGroups (orderLabel now o) o acc) acc,
      ∀ x ∈ g.2, orderLabel now x = g.1 := by
  induction l generalizing acc with
  | nil => exact h
  | cons o t ih =>
    simp only [List.foldl_cons]
    exact ih (addToGroups (orderLabel now o) o acc)
      (addToGroups_members now (orderLabel now o) o acc h rfl)

/-! ## Lemmas: block list and client upsert -/

theorem countP_le_one_of_nodup_map {α : Type} (f : α → String) (q : String) (l : List α)
    (h : (l.map f).Nodup) : l.countP (fun b => decide (f b = q)) ≤ 1 := by
  induction l with
  | nil => simp
  | cons x t ih =>
    simp only [List.map_cons, List.nodup_cons] at h
    rw [List.countP_cons]
    by_cases hx : f x = q
    · have hzero : t.countP (fun b => decide (f b = q)) = 0 := by
        rw [List.countP_eq_zero]
        intro b hb
        simp only [decide_eq_true_eq]
        intro hbq
        exact h.1 (List.mem_map.mpr ⟨b, hb, by rw [hbq, hx]⟩)
      simp [hzero, hx]
    · have hpx : (decide (f x = q)) = false := by simp [hx]
      simp only [hpx, Bool.false_eq_true, if_false, Nat.add_zero]
      exact ih h.2

theorem overwriteFirst_map_mobile (mobile : String) (nc : Client) (l : List Client)
    (hm : nc.mobile = mobile) :
    (overwriteFirst mobile nc l).map (fun c => c.mobile) = l.map fun c => c.mobile := by
  induction l with
  | nil => rfl
  | cons c t ih =>
    simp only [overwriteFirst]
    by_cases hc : c.mobile = mobile
    · rw [if_pos hc]
      simp [hm, hc]
    · rw [if_neg hc]
      simp [ih]

theorem overwriteFirst_no_match (mobile : String) (nc : Client) (l : List Client)
    (h : ∀ c ∈ l, c.mobile ≠ mobile) : overwriteFirst mobile nc l = l := by
  induction l with
  | nil => rfl
  | cons c t ih =>
    simp only [overwriteFirst, if_neg (h c (by simp))]
    rw [ih fun c hc => h c (List.mem_cons_of_mem _ hc)]

theorem overwriteFirst_append_no_match (mobile : String) (nc : Client) (l1 l2 : List Client)
    (h : ∀ c ∈ l1, c.mobile ≠ mobile) :
    overwriteFirst mobile nc (l1 ++ l2) = l1 ++ overwriteFirst mobile nc l2 := by
  induction l1 with
  | nil => rfl
  | cons c t ih =>
    simp only [List.cons_append, overwriteFirst, if_neg (h c (by simp))]
    exact congrArg (fun r => c :: r) (ih fun c hc => h c (List.mem_cons_of_mem _ hc))

theorem removeBlock_ne_nil (q : String) (blocks : List OrderBlock)
    (hnd : (blocks.map fun b => b.id).Nodup) (hne : blocks ≠ []) :
    removeBlock q blocks ≠ [] := by
  unfold removeBlock
  by_cases hlen : blocks.length > 1
  · rw [if_pos hlen]
    have h1 := List.length_eq_countP_add_countP (fun b : OrderBlock => decide (b.id ≠ q)) blocks
    have h2 : blocks.countP (fun a => decide ¬((decide (a.id ≠ q)) = true)) =
        blocks.countP (fun b => decide (b.id = q)) := by
      apply List.countP_congr
      intro a _
      simp
    have h3 : blocks.countP (fun b => decide (b.id = q)) ≤ 1 :=
      countP_le_one_of_nodup_map (fun b => b.id) q blocks hnd
    have h4 := List.countP_eq_length_filter (fun b : OrderBlock => decide (b.id ≠ q)) blocks
    intro he
    rw [he] at h4
    simp only [List.length_nil] at h4
    omega
  · rw [if_neg hlen]
    exact hne

theorem all_ne_mobile_iff (clients : List Client) (mobile : String) :
    (clients.all fun c => c.mobile ≠ mobile) = true ↔ ∀ c ∈ clients, c.mobile ≠ mobile := by
  rw [List.all_eq_true]
  constructor
  · intro h c hc
    simpa using h c hc
  · intro h c hc
    simpa using h c hc

theorem saveClient_nodup (mobile name address : String) (blocks : List OrderBlock)
    (clients : List Client) (h : (clients.map fun c => c.mobile).Nodup) :
    ((saveClient mobile name address blocks clients).map fun c => c.mobile).Nodup := by
  unfold saveClient
  by_cases hg : mobile = "" ∨ name = ""
  · rw [if_pos hg]
    exact h
  · rw [if_neg hg]
    by_cases hall : (clients.all fun c => c.mobile ≠ mobile) = true
    · rw [if_pos hall]
      rw [List.map_append]
      simp only [List.map_cons, List.map_nil]
      rw [List.nodup_append]
      refine ⟨h, List.nodup_singleton _, ?_⟩
      intro a ha hb
      simp only [List.mem_singleton] at hb
      obtain ⟨c, hc, hcm⟩ := List.mem_map.mp ha
      exact (all_ne_mobile_iff clients mobile).mp hall c hc (by rw [hcm, hb])
    · rw [if_neg hall]
      rw [overwriteFirst_map_mobile mobile _ clients rfl]
      exact h

theorem saveClient_fresh (mobile name address : String) (blocks : List OrderBlock)
    (clients : List Client) (hg : ¬(mobile = "" ∨ name = ""))
    (hfresh : ∀ c ∈ clients, c.mobile ≠ mobile) :
    saveClient mobile name address blocks clients =
      clients ++ [⟨mobile, name, address, firstNotes blocks⟩] := by
  unfold saveClient
  rw [if_neg hg, if_pos ((all_ne_mobile_iff clients mobile).mpr hfresh)]
  cases blocks <;> rfl

theorem saveClient_overwrite (mobile name address : String) (blocks : List OrderBlock)
    (l1 : List Client) (old : Client) (l2 : List Client)
    (hg : ¬(mobile = "" ∨ name = ""))
    (h1 : ∀ c ∈ l1, c.mobile ≠ mobile) (hold : old.mobile = mobile) :
    saveClient mobile name address blocks (l1 ++ old :: l2) =
      l1 ++ ⟨mobile, name, address, firstNotes blocks⟩ :: l2 := by
  unfold saveClient
  rw [if_neg hg, if_neg ?hall]
  case hall =>
    intro hcontra
    exact (all_ne_mobile_iff _ mobile).mp hcontra old (by simp) hold
  rw [overwriteFirst_append_no_match mobile _ l1 (old :: l2) h1]
  simp only [overwriteFirst, if_pos hold]
  cases blocks <;> rfl

/-! ## Claims -/

/-- C1: the generated quotation ID is the uppercased, whitespace-stripped
client name, zero-padded day and month, the year, a literal Q, and a
3-digit zero-padded sequence number equal to one plus the number of stored
order ids that start with that base; with client name "Test User", date
5 March 2025 and no matching stored orders it is "TESTUSER05032025Q001";
if client name or date is absent the ID is the empty string. -/
theorem claim_C1 :
    (∀ (clientName : String) (date : Option FormDate) (orders : List StoredId),
      clientName = "" ∨ date = none → generateOrderId clientName date orders = []) ∧
    (∀ (clientName : String) (dt : FormDate) (orders : List StoredId),
      clientName ≠ "" →
      generateOrderId clientName (some dt) orders =
        ((clientName.toList.filter fun c => !(isJsSpace c)).map asciiUpper) ++
          padStart 2 '0' (natToStr dt.day) ++ padStart 2 '0' (natToStr (dt.month0 + 1)) ++
          natToStr dt.year ++ ['Q'] ++
          padStart 3 '0' (natToStr
            ((orders.countP fun o => match o.id with
              | some i =>
                listStartsWith
                  (((clientName.toList.filter fun c => !(isJsSpace c)).map asciiUpper) ++
                    padStart 2 '0' (natToStr dt.day) ++
                    padStart 2 '0' (natToStr (dt.month0 + 1)) ++
                    natToStr dt.year ++ ['Q']) i.toList
              | none => false) + 1))) ∧
    String.mk (generateOrderId "Test User" (some ⟨2025, 2, 5⟩) []) = "TESTUSER05032025Q001" := by
  refine ⟨?_, ?_, by decide⟩
  · rintro clientName date orders (h | h)
    · cases date with
      | none => rfl
      | some dt => simp [generateOrderId, h]
    · subst h
      rfl
  · intro clientName dt orders h
    simp only [generateOrderId, if_neg h]
    rw [List.countP_eq_length_filter]

/-- C1 witness: the empty-name case of the theorem at a concrete input. -/
theorem claim_C1_witness :
    generateOrderId "" (some ⟨2025, 2, 5⟩) [] = [] ∧
    generateOrderId "Ab" (some ⟨2025, 2, 5⟩) [] =
      ((("Ab" : String).toList.filter fun c => !(isJsSpace c)).map asciiUpper) ++
        padStart 2 '0' (natToStr 5) ++ padStart 2 '0' (natToStr 3) ++ natToStr 2025 ++ ['Q'] ++
        padStart 3 '0' (natToStr (((([] : List StoredId)).countP fun o => match o.id with
          | some i =>
            listStartsWith
              (((("Ab" : String).toList.filter fun c => !(isJsSpace c)).map asciiUpper) ++
                padStart 2 '0' (natToStr 5) ++ padStart 2 '0' (natToStr 3) ++
                natToStr 2025 ++ ['Q']) i.toList
          | none => false) + 1)) :=
  ⟨claim_C1.1 "" (some ⟨2025, 2, 5⟩) [] (Or.inl rfl),
   claim_C1.2.1 "Ab" ⟨2025, 2, 5⟩ [] (by decide)⟩

/-- C8: round trip between the order form's dateTime formatter and the
history screen's parser — for every event date and time the form can hold,
the formatted string parses structurally (no current-moment fallback) and
the parse recovers the original day, month, year, hour, and minute. -/
theorem claim_C8 (d m y h mi : Nat) (_hd1 : 1 ≤ d) (_hd2 : d ≤ 31) (_hm1 : 1 ≤ m)
    (_hm2 : m ≤ 12) (_hy1 : 1000 ≤ y) (_hy2 : y ≤ 9999) (hh : h ≤ 23) (_hmi : mi ≤ 59) :
    parseDate (formatDateTime d m y h mi) ≠ .fallback ∧
    parseDate (formatDateTime d m y h mi) = .parsed (jsInt d) (jsInt m) (jsInt y) h mi := by
  have heq := parseDate_formatDateTime d m y h mi hh
  constructor
  · rw [heq]
    intro hc
    cases hc
  · exact heq

/-- C8 witness: the round trip at 5 March 2025, 15:30. -/
theorem claim_C8_witness :
    parseDate (formatDateTime 5 3 2025 15 30) ≠ .fallback ∧
    parseDate (formatDateTime 5 3 2025 15 30) =
      .parsed (jsInt 5) (jsInt 3) (jsInt 2025) 15 30 :=
  claim_C8 5 3 2025 15 30 (by decide) (by decide) (by decide) (by decide) (by decide)
    (by decide) (by decide) (by decide)

/-- C9: the block list never becomes empty — removal is guarded by the
block count and, with the session invariant that block ids are locally
unique, removing by id keeps at least one block; adding and updating keep
the list nonempty; removing with exactly one block left is a no-op with
unchanged fields; after adding a second block the original can be removed,
leaving exactly the new (empty) block. -/
theorem claim_C9 :
    (∀ (q : String) (blocks : List OrderBlock),
      (blocks.map fun b => b.id).Nodup → blocks ≠ [] → removeBlock q blocks ≠ []) ∧
    (∀ (newId : String) (blocks : List OrderBlock), blocks ≠ [] →
      addOrderBlock newId blocks ≠ []) ∧
    (∀ (q : String) (f : BlockField) (v : String) (blocks : List OrderBlock),
      blocks ≠ [] → updateBlock q f v blocks ≠ []) ∧
    (∀ (b : OrderBlock) (q : String), removeBlock q [b] = [b]) ∧
    (∀ (b : OrderBlock) (newId : String), newId ≠ b.id →
      removeBlock b.id (addOrderBlock newId [b]) = [⟨newId, "", "", ""⟩]) := by
  refine ⟨removeBlock_ne_nil, ?_, ?_, ?_, ?_⟩
  · intro newId blocks _ he
    exact absurd (List.append_eq_nil.mp he).2 (by simp)
  · intro q f v blocks hne he
    exact hne (List.map_eq_nil_iff.mp he)
  · intro b q
    simp [removeBlock]
  · intro b newId hne
    simp only [addOrderBlock, removeBlock]
    rw [if_pos (by simp)]
    simp [List.filter, hne]

/-- C9 witness: the parts of the theorem with hypotheses, at concrete
blocks. -/
theorem claim_C9_witness :
    removeBlock "2" [⟨"1", "pasta", "", "4"⟩, ⟨"2", "rice", "", "6"⟩] ≠ [] ∧
    removeBlock "1" (addOrderBlock "99" [⟨"1", "pasta", "n", "4"⟩]) = [⟨"99", "", "", ""⟩] :=
  ⟨claim_C9.1 "2" [⟨"1", "pasta", "", "4"⟩, ⟨"2", "rice", "", "6"⟩] (by decide) (by decide),
   claim_C9.2.2.2.2 ⟨"1", "pasta", "n", "4"⟩ "99" (by decide)⟩

/-- C10: the history date parser checks structure and numeric parsing
only, not ranges — "40/13/2025 at 9:99 PM" does not take the
current-moment fallback; its out-of-range components roll over by
calendar arithmetic to 9 February 2026, 22:39, so the record files under
the label "February 2026" rather than being treated as malformed. -/
theorem claim_C10 :
    parseDate (("40/13/2025 at 9:99 PM").toList) =
      .parsed (jsInt 40) (jsInt 13) (jsInt 2025) 21 99 ∧
    parseDate (("40/13/2025 at 9:99 PM").toList) ≠ .fallback ∧
    dateParts ((jsDateValue 0 (parseDate (("40/13/2025 at 9:99 PM").toList))).getD 0) =
      (2026, 2, 9, 22, 39) ∧
    monthYearLabel (jsDateValue 0 (parseDate (("40/13/2025 at 9:99 PM").toList))) =
      ("February 2026").toList := by
  refine ⟨by decide, ?_, by decide, by decide⟩
  intro hc
  rw [show parseDate (("40/13/2025 at 9:99 PM").toList) =
    .parsed (jsInt 40) (jsInt 13) (jsInt 2025) 21 99 from by decide] at hc
  cases hc

/-- C3 counterexample: "-123456789" is exactly 10 characters and passes
the source's mobile check (`Number` parses a signed integer), yet is not
entirely decimal digits — refuting "accepts if and only if ... all ten
characters are decimal digits". -/
theorem claim_C3_counterexample :
    mobileOk "-123456789" = true ∧ ("-123456789").toList.length = 10 ∧
    ¬(∀ c ∈ ("-123456789").toList, c.isDigit = true) := by
  refine ⟨by decide, by decide, ?_⟩
  intro h
  exact absurd (h '-' (by decide)) (by decide)

/-- C3 amended: submission validation accepts a mobile value iff it is
exactly 10 characters long and `Number(mobile)` is not NaN.  Every
10-character all-digit string is accepted, but so are other numeric forms
(signs, decimal point, exponent, hex, surrounding whitespace).  The given
examples behave as claimed, and a rejected value yields the message
"Mobile must be 10 digits." with the stored collections unchanged. -/
theorem claim_C3_amended :
    (∀ m : String, mobileOk m = true ↔
      (m.toList.length = 10 ∧ jsIsNaN (jsNumber m.toList) = false)) ∧
    (∀ m : String, m.toList.length = 10 → (∀ c ∈ m.toList, c.isDigit = true) →
      mobileOk m = true) ∧
    mobileOk "98765432" = false ∧ mobileOk "98765432ab" = false ∧
    mobileOk "9876543210" = true ∧
    (∀ (docDir : String) (f : FormState) (st : Store) (fp : Option FailPoint),
      ¬(f.orderId = "" ∨ f.clientName = "" ∨ f.mobile = "" ∨ f.address = "" ∨
        f.quotationAmount = "") →
      mobileOk f.mobile = false →
      generateAndSavePDF docDir f st fp =
        ⟨none, some ("Mobile must be 10 digits."), st⟩) := by
  refine ⟨?_, ?_, by decide, by decide, by decide, ?_⟩
  · intro m
    simp [mobileOk]
  · intro m hlen hdig
    have hne : m.toList ≠ [] := by
      intro he
      rw [he] at hlen
      simp at hlen
    have hjs : jsNumber m.toList = jsInt (digitsVal m.toList) :=
      jsNumber_all_digits m.toList hdig hne
    simp only [mobileOk, hjs, jsInt, jsIsNaN, Bool.not_false, Bool.and_true,
      decide_eq_true_eq]
    exact ⟨hlen, trivial⟩
  · intro docDir f st fp hreq hmob
    simp only [generateAndSavePDF, if_neg hreq]
    rw [if_pos (by simp [hmob])]

/-- C3 witness: the gating part of the amended theorem at a concrete form
state whose mobile has 8 characters. -/
theorem claim_C3_witness :
    generateAndSavePDF "doc/" (⟨"ID1", "Cl", "98765432", "Addr", "100",
        [⟨"1", "menu", "", "2"⟩], 5, 3, 2025, 15, 30⟩ : FormState) ⟨[], []⟩ none =
      ⟨none, some ("Mobile must be 10 digits."), ⟨[], []⟩⟩ :=
  claim_C3_amended.2.2.2.2.2 "doc/"
    ⟨"ID1", "Cl", "98765432", "Addr", "100", [⟨"1", "menu", "", "2"⟩], 5, 3, 2025, 15, 30⟩
    ⟨[], []⟩ none (by decide) (by decide)

/-- C2 counterexample: when the clients write (the last storage step)
fails, the run returns null and sets the "Failed to generate PDF" message,
but the order record has already been appended to the orders collection —
refuting "the orders and clients collections are left exactly as they were
before the invocation". -/
theorem claim_C2_counterexample :
    (generateAndSavePDF "doc/" (⟨"ID1", "Cl", "9876543210", "Addr", "100",
        [⟨"1", "menu", "", "2"⟩], 5, 3, 2025, 15, 30⟩ : FormState) ⟨[], []⟩
        (some .setClients)).result = none ∧
    (generateAndSavePDF "doc/" (⟨"ID1", "Cl", "9876543210", "Addr", "100",
        [⟨"1", "menu", "", "2"⟩], 5, 3, 2025, 15, 30⟩ : FormState) ⟨[], []⟩
        (some .setClients)).message = some ("Failed to generate PDF") ∧
    (generateAndSavePDF "doc/" (⟨"ID1", "Cl", "9876543210", "Addr", "100",
        [⟨"1", "menu", "", "2"⟩], 5, 3, 2025, 15, 30⟩ : FormState) ⟨[], []⟩
        (some .setClients)).store.orders ≠ [] := by
  refine ⟨by decide, by decide, ?_⟩
  intro he
  have : ((generateAndSavePDF "doc/" (⟨"ID1", "Cl", "9876543210", "Addr", "100",
      [⟨"1", "menu", "", "2"⟩], 5, 3, 2025, 15, 30⟩ : FormState) ⟨[], []⟩
      (some .setClients)).store.orders).length = 1 := by decide
  rw [he] at this
  simp at this

/-- C2 amended: a failing file or storage step always yields null and the
"Failed to generate PDF" message, and the clients collection is always
left unchanged; the orders collection is unchanged for a failure at any
step up to and including the orders write, but a failure at the clients
write happens after the orders write, so the new order record remains
persisted in that one case. -/
theorem claim_C2_amended (docDir : String) (f : FormState) (st : Store) (fp : FailPoint)
    (hreq : ¬(f.orderId = "" ∨ f.clientName = "" ∨ f.mobile = "" ∨ f.address = "" ∨
      f.quotationAmount = ""))
    (hmob : mobileOk f.mobile = true)
    (hmenu : ¬((f.blocks.all fun b => jsTrim b.description.toList = []) = true)) :
    (generateAndSavePDF docDir f st (some fp)).result = none ∧
    (generateAndSavePDF docDir f st (some fp)).message = some ("Failed to generate PDF") ∧
    (generateAndSavePDF docDir f st (some fp)).store.clients = st.clients ∧
    (fp ≠ .setClients → (generateAndSavePDF docDir f st (some fp)).store = st) ∧
    (fp = .setClients →
      (generateAndSavePDF docDir f st (some fp)).store.orders =
        st.orders ++ [mkOrder docDir f]) := by
  have hmenu2 : ¬∀ x ∈ f.blocks, jsTrim x.description.data = [] := by
    simpa using hmenu
  cases fp <;>
    simp [generateAndSavePDF, hreq, hmob, hmenu2]

/-- C2 witness: the amended theorem at a concrete valid form, with the
print step failing. -/
theorem claim_C2_witness :
    (generateAndSavePDF "doc/" (⟨"ID1", "Cl", "9876543210", "Addr", "100",
        [⟨"1", "menu", "", "2"⟩], 5, 3, 2025, 15, 30⟩ : FormState) ⟨[], []⟩
        (some .printToFile)).result = none ∧
    (generateAndSavePDF "doc/" (⟨"ID1", "Cl", "9876543210", "Addr", "100",
        [⟨"1", "menu", "", "2"⟩], 5, 3, 2025, 15, 30⟩ : FormState) ⟨[], []⟩
        (some .printToFile)).message = some ("Failed to generate PDF") ∧
    (generateAndSavePDF "doc/" (⟨"ID1", "Cl", "9876543210", "Addr", "100",
        [⟨"1", "menu", "", "2"⟩], 5, 3, 2025, 15, 30⟩ : FormState) ⟨[], []⟩
        (some .printToFile)).store.clients = [] ∧
    (FailPoint.printToFile ≠ FailPoint.setClients →
      (generateAndSavePDF "doc/" (⟨"ID1", "Cl", "9876543210", "Addr", "100",
        [⟨"1", "menu", "", "2"⟩], 5, 3, 2025, 15, 30⟩ : FormState) ⟨[], []⟩
        (some .printToFile)).store = ⟨[], []⟩) := by
  have h := claim_C2_amended "doc/"
    ⟨"ID1", "Cl", "9876543210", "Addr", "100", [⟨"1", "menu", "", "2"⟩], 5, 3, 2025, 15, 30⟩
    ⟨[], []⟩ .printToFile (by decide) (by decide) (by decide)
  exact ⟨h.1, h.2.1, h.2.2.1, h.2.2.2.1⟩

/-- C4: the history date parser is total, and its fallback is the current
moment at parse time, never the epoch; every non-fallback result comes
from a successful structural parse (split on " at " into two parts, three
Number-parseable date components, a digits:digits AM/PM time match) with
the 12-to-24-hour conversion applied; "31/12/2025 at 11:45 PM" parses to
day 31, month 12, year 2025, hour 23, minute 45, and "not-a-date" (and
the empty string) take the fallback. -/
theorem claim_C4 :
    (∀ (s : List Char) (now : Int), parseDate s = .fallback →
      jsDateValue now (parseDate s) = some now) ∧
    (∀ (s : List Char) (d m y : JsNum) (h mi : Nat), parseDate s = .parsed d m y h mi →
      ∃ dp tp h12 pm, splitSub (' ' :: 'a' :: 't' :: ' ' :: []) s = [dp, tp] ∧
        (splitSub ['/'] dp).map jsNumber = [d, m, y] ∧
        jsIsNaN d = false ∧ jsIsNaN m = false ∧ jsIsNaN y = false ∧
        searchTime tp = some (h12, mi, pm) ∧ h = jsTo24 pm h12) ∧
    parseDate (("31/12/2025 at 11:45 PM").toList) =
      .parsed (jsInt 31) (jsInt 12) (jsInt 2025) 23 45 ∧
    parseDate (("not-a-date").toList) = .fallback ∧
    parseDate [] = .fallback := by
  refine ⟨?_, ?_, by decide, by decide, by decide⟩
  · intro s now hf
    rw [hf]
    rfl
  · intro s d m y h mi hp
    unfold parseDate at hp
    split at hp
    · cases hp
    · split at hp
      · rename_i dpv tpv hparts
        split at hp
        · rename_i h12 mi2 pm hsearch
          dsimp only [] at hp
          split at hp
          · rename_i d2 m2 y2 hnums
            split at hp
            · cases hp
            · rename_i hnan
              rw [ParseOutcome.parsed.injEq] at hp
              obtain ⟨hd, hm, hy, hh, hmi⟩ := hp
              subst hd
              subst hm
              subst hy
              subst hmi
              push_neg at hnan
              exact ⟨dpv, tpv, h12, pm, hparts, hnums, by simpa using hnan.1,
                by simpa using hnan.2.1, by simpa using hnan.2.2, hsearch, hh.symm⟩
          · cases hp
        · dsimp only [] at hp
          split at hp
          · split at hp
            · cases hp
            · cases hp
          · cases hp
      · cases hp

/-- C4 witness: the fallback-is-now part at a concrete malformed string
and a concrete current moment. -/
theorem claim_C4_witness :
    jsDateValue 12345 (parseDate (("not-a-date").toList)) = some 12345 :=
  claim_C4.1 (("not-a-date").toList) 12345 (by decide)

/-- C5: the history load-and-repair pipeline keeps exactly the raw entries
with non-empty id, dateTime and pdfUri (normalized); deduplicates by id,
keeping the first occurrence of each id and preserving relative order (the
result is a sublist of the filtered list whose ids are distinct, and an
entry is kept iff it is the first entry with its id); and writes the
cleaned list back iff deduplication removed at least one entry — in
particular already-clean data (distinct ids) is never written back. -/
theorem claim_C5 (raw : List RawOrder) :
    (∀ x, x ∈ validOrders raw ↔
      ∃ o ∈ raw, (o.id ≠ "" ∧ o.dateTime ≠ "" ∧ o.pdfUri ≠ "") ∧ x = normalizeOrder o) ∧
    ((historyLoad raw).1).Sublist (validOrders raw) ∧
    (((historyLoad raw).1).map fun o => o.id).Nodup ∧
    (∀ x, x ∈ (historyLoad raw).1 ↔ x ∈ validOrders raw ∧
      (validOrders raw).find? (fun y => decide (y.id = x.id)) = some x) ∧
    ((historyLoad raw).2 = some ((historyLoad raw).1) ↔
      (historyLoad raw).1 ≠ validOrders raw) ∧
    (((validOrders raw).map fun o => o.id).Nodup → (historyLoad raw).2 = none) := by
  refine ⟨?_, ?_, ?_, ?_, ?_, ?_⟩
  · intro x
    simp only [validOrders, List.mem_map, List.mem_filter]
    constructor
    · rintro ⟨o, ⟨ho, hcond⟩, hx⟩
      exact ⟨o, ho, of_decide_eq_true hcond, hx.symm⟩
    · rintro ⟨o, ho, hcond, hx⟩
      exact ⟨o, ⟨ho, decide_eq_true hcond⟩, hx.symm⟩
  · exact keepFirstAux_sublist _ _ []
  · exact keepFirstAux_nodup_keys _ _ []
  · intro x
    rw [show (historyLoad raw).1 = keepFirst (fun o => o.id) (validOrders raw) from rfl,
      keepFirst, keepFirstAux_mem_iff]
    simp
  · show (if (keepFirst (fun o : HOrder => o.id) (validOrders raw)).length ≠
        (validOrders raw).length then some _ else none) = some _ ↔ _
    split
    · next hne =>
      constructor
      · intro _ he
        have he2 : keepFirst (fun o : HOrder => o.id) (validOrders raw) = validOrders raw := he
        rw [he2] at hne
        exact hne rfl
      · intro _
        rfl
    · next hne =>
      push_neg at hne
      constructor
      · intro hc
        cases hc
      · intro hne2
        exact absurd
          ((keepFirstAux_sublist (fun o : HOrder => o.id) (validOrders raw) []).eq_of_length hne)
          hne2
  · intro hnd
    have : keepFirst (fun o : HOrder => o.id) (validOrders raw) = validOrders raw :=
      keepFirst_of_nodup _ _ hnd
    show (if (keepFirst (fun o : HOrder => o.id) (validOrders raw)).length ≠
        (validOrders raw).length then some _ else none) = none
    rw [this, if_neg (by simp)]

/-- C5 witness: the no-write part at concrete clean data, and the iff at
data with a duplicate id. -/
theorem claim_C5_witness :
    (historyLoad [⟨"X1", "d", "u", none, none, none, none, none⟩]).2 = none :=
  (claim_C5 [⟨"X1", "d", "u", none, none, none, none, none⟩]).2.2.2.2.2 (by decide)

/-- C6: the client upsert preserves the at-most-one-record-per-mobile
invariant (distinct mobiles stay distinct); when a record with the saved
mobile exists it is overwritten in place, leaving the mobile sequence of
the collection unchanged; and generating two orders for the same mobile
with different details over a collection that does not yet hold that
mobile leaves exactly one record for it, carrying the most recently saved
name, address, and first-block notes. -/
theorem claim_C6 :
    (∀ (mobile name address : String) (blocks : List OrderBlock) (clients : List Client),
      ((clients.map fun c => c.mobile).Nodup) →
      ((saveClient mobile name address blocks clients).map fun c => c.mobile).Nodup) ∧
    (∀ (mobile name address : String) (blocks : List OrderBlock) (l1 : List Client)
        (old : Client) (l2 : List Client),
      ¬(mobile = "" ∨ name = "") → (∀ c ∈ l1, c.mobile ≠ mobile) → old.mobile = mobile →
      saveClient mobile name address blocks (l1 ++ old :: l2) =
        l1 ++ ⟨mobile, name, address, firstNotes blocks⟩ :: l2 ∧
      ((saveClient mobile name address blocks (l1 ++ old :: l2)).map fun c => c.mobile) =
        ((l1 ++ old :: l2).map fun c => c.mobile)) ∧
    (∀ (mobile n1 a1 n2 a2 : String) (b1 b2 : List OrderBlock) (clients : List Client),
      ¬(mobile = "" ∨ n1 = "") → ¬(mobile = "" ∨ n2 = "") →
      (∀ c ∈ clients, c.mobile ≠ mobile) →
      ((saveClient mobile n2 a2 b2 (saveClient mobile n1 a1 b1 clients)).filter
          fun c => c.mobile = mobile) =
        [⟨mobile, n2, a2, firstNotes b2⟩]) := by
  refine ⟨saveClient_nodup, ?_, ?_⟩
  · intro mobile name address blocks l1 old l2 hg h1 hold
    have heq := saveClient_overwrite mobile name address blocks l1 old l2 hg h1 hold
    refine ⟨heq, ?_⟩
    rw [heq]
    simp [hold]
  · intro mobile n1 a1 n2 a2 b1 b2 clients hg1 hg2 hfresh
    rw [saveClient_fresh mobile n1 a1 b1 clients hg1 hfresh]
    have heq := saveClient_overwrite mobile n2 a2 b2 clients
      ⟨mobile, n1, a1, firstNotes b1⟩ [] hg2 hfresh rfl
    rw [show clients ++ [(⟨mobile, n1, a1, firstNotes b1⟩ : Client)] =
      clients ++ (⟨mobile, n1, a1, firstNotes b1⟩ : Client) :: [] from rfl, heq]
    rw [List.filter_append]
    have hnil : (clients.filter fun c => decide (c.mobile = mobile)) = [] := by
      rw [List.filter_eq_nil_iff]
      intro c hc
      simp [hfresh c hc]
    rw [hnil]
    simp

/-- C6 witness: the upsert scenario at concrete values — two saves for
mobile "9876543210" with different names leave exactly one record, the
latest. -/
theorem claim_C6_witness :
    ((saveClient "9876543210" "New Name" "New Addr" [⟨"1", "m", "note2", "2"⟩]
        (saveClient "9876543210" "Old Name" "Old Addr" [⟨"1", "m", "note1", "2"⟩]
          [⟨"1112223334", "Other", "X", "n"⟩])).filter
      fun c => c.mobile = "9876543210") =
      [⟨"9876543210", "New Name", "New Addr", "note2"⟩] := by
  have h := claim_C6.2.2 "9876543210" "Old Name" "Old Addr" "New Name" "New Addr"
    [⟨"1", "m", "note1", "2"⟩] [⟨"1", "m", "note2", "2"⟩]
    [⟨"1112223334", "Other", "X", "n"⟩] (by decide) (by decide) (by decide)
  exact h

/-- C7: for every list of loaded orders whose dateTime strings parse to a
finite time value (fallback included), the history view's sorted list is a
permutation of the input that is descending in the parsed time key; each
rendered section's count is the size of its member list, every member
carries the section's "<Month name> <Year>" label, section titles appear
in first-seen order of the sorted sequence with no duplicates, and the
sections' members together are exactly the loaded orders; four orders
dated in March, January, March, February 2025 produce the three sections
"March 2025" (count 2), "February 2025" (count 1), "January 2025"
(count 1). -/
theorem claim_C7 :
    (∀ (now : Int) (orders : List HOrder),
      (∀ o ∈ orders, (jsDateValue now (parseDate o.dateTime.toList)).isSome = true) →
      List.Perm (sortDesc now orders) orders ∧
      (sortDesc now orders).Pairwise (fun a b => timeKey now b ≤ timeKey now a) ∧
      (∀ s ∈ historySections now orders,
        s.count = s.data.length ∧ ∀ o ∈ s.data, orderLabel now o = s.title) ∧
      ((historySections now orders).map fun s => s.title) =
        keepFirst (fun lab => lab) ((sortDesc now orders).map (orderLabel now)) ∧
      List.Perm ((historySections now orders).map fun s => s.data).flatten orders) ∧
    ((historySections 0
        [⟨"O1", "C1", "9876543210", "A", "15/03/2025 at 1:00 PM", [], "100", "u1"⟩,
         ⟨"O2", "C2", "9876543210", "A", "10/01/2025 at 1:00 PM", [], "100", "u2"⟩,
         ⟨"O3", "C3", "9876543210", "A", "02/03/2025 at 1:00 PM", [], "100", "u3"⟩,
         ⟨"O4", "C4", "9876543210", "A", "20/02/2025 at 1:00 PM", [], "100", "u4"⟩]).map
      fun s => (s.title, s.count)) =
      [(("March 2025").toList, 2), (("February 2025").toList, 1),
       (("January 2025").toList, 1)] := by
  constructor
  · intro now orders _
    refine ⟨sortDesc_perm now orders, sortDesc_sorted now orders, ?_, ?_, ?_⟩
    · intro s hs
      simp only [historySections, List.mem_map] at hs
      obtain ⟨g, hg, hgs⟩ := hs
      subst hgs
      refine ⟨rfl, ?_⟩
      intro o ho
      exact groupFold_members now (sortDesc now orders) [] (by simp) g hg o ho
    · have h := groupFold_fst now (sortDesc now orders) []
      simp only [List.map_nil, List.nil_append] at h
      rw [show ((historySections now orders).map fun s => s.title) =
        (groupByLabel now (sortDesc now orders)).map Prod.fst from by
          simp [historySections, List.map_map]]
      rw [show groupByLabel now (sortDesc now orders) =
        (sortDesc now orders).foldl (fun acc o => addToGroups (orderLabel now o) o acc) []
        from rfl]
      rw [h]
      rfl
    · have h := groupFold_join now (sortDesc now orders) []
      simp only [List.map_nil, List.flatten_nil, List.nil_append] at h
      rw [show ((historySections now orders).map fun s => s.data) =
        (groupByLabel now (sortDesc now orders)).map Prod.snd from by
          simp [historySections, List.map_map]]
      exact h.trans (sortDesc_perm now orders)
  · decide

/-- C7 witness: the general part at a concrete two-order list with valid
parses, extracting the permutation and sortedness. -/
theorem claim_C7_witness :
    List.Perm
      (sortDesc 0
        [⟨"O1", "C1", "9876543210", "A", "15/03/2025 at 1:00 PM", [], "100", "u1"⟩,
         ⟨"O2", "C2", "9876543210", "A", "10/01/2025 at 1:00 PM", [], "100", "u2"⟩])
      [⟨"O1", "C1", "9876543210", "A", "15/03/2025 at 1:00 PM", [], "100", "u1"⟩,
       ⟨"O2", "C2", "9876543210", "A", "10/01/2025 at 1:00 PM", [], "100", "u2"⟩] ∧
    (sortDesc 0
        [⟨"O1", "C1", "9876543210", "A", "15/03/2025 at 1:00 PM", [], "100", "u1"⟩,
         ⟨"O2", "C2", "9876543210", "A", "10/01/2025 at 1:00 PM", [], "100", "u2"⟩]).Pairwise
      (fun a b => timeKey 0 b ≤ timeKey 0 a) := by
  have h := claim_C7.1 0
    [⟨"O1", "C1", "9876543210", "A", "15/03/2025 at 1:00 PM", [], "100", "u1"⟩,
     ⟨"O2", "C2", "9876543210", "A", "10/01/2025 at 1:00 PM", [], "100", "u2"⟩]
    (by decide)
  exact ⟨h.1, h.2.1⟩
